import Mathlib

/-
Verification of the OPFS command-execution engine of opfs-finder.

The embedding models the code injected into the page by
src/src/background/index.ts: the path helpers, the handle-resolution
walks, the thirteen filesystem commands and the error-mapping boundary
of window.__OPFS_HANDLER__, together with the pure path utilities of
the panel (src/unnamed/part_001).

Modelling conventions:
- The backing OPFS store is a tree of named nodes (`Node`): a file holds
  its byte content as a `List Nat`; a directory holds an association
  list of children in insertion order, matching the iteration order of
  FileSystemDirectoryHandle entries.
- JavaScript strings that carry file content are modelled as byte
  sequences (`List Nat`); text decoding and base64 transport encoding
  are length-preserving bijections on those bytes and are modelled as
  the identity.
- Native exceptions are values of `JsErr` carrying the DOMException
  name, message and stack; `Except JsErr` models throw/catch.
- Real time (File.lastModified, Date.now()) is an environment input
  with no bearing on the claims and is not tracked. The platform inputs
  of the two probes (navigator.storage presence, getDirectory outcome,
  estimate outcome) are an explicit `Env` argument.
- `String.split` of JavaScript on a single-character separator is
  implemented by `splitChar`, which matches it exactly.
-/

namespace Opfs

/-- Splits a string at every occurrence of the separator character,
faithful to JavaScript String.prototype.split with a one-character
separator: n separators yield n+1 (possibly empty) pieces. -/
def splitCharAux (sep : Char) : List Char → List Char → List String
  | [], acc => [String.mk acc.reverse]
  | c :: rest, acc =>
    if c = sep then String.mk acc.reverse :: splitCharAux sep rest []
    else splitCharAux sep rest (c :: acc)

/-- JavaScript path.split(sep) for a single-character sep. -/
def splitChar (sep : Char) (s : String) : List String :=
  splitCharAux sep s.data []

/-- path.split('/').filter((part) => part.length > 0), the segment list
used by every resolution function in the injected code. -/
def pathParts (path : String) : List String :=
  (splitChar '/' path).filter (fun p => p.length > 0)

/-- getParentPath of src/src/background/index.ts. -/
def getParentPath (path : String) : String :=
  let parts := pathParts path
  if parts.length ≤ 1 then "/"
  else "/" ++ String.intercalate "/" parts.dropLast

/-- getBasename of src/src/background/index.ts: the last nonempty
segment, or the empty string for the root. -/
def getBasename (path : String) : String :=
  match (pathParts path).getLast? with
  | some n => n
  | none => ""

/-- normalize of the panel path utilities (src/unnamed/part_001): both
files compute the identical split-and-filter segment list. -/
def normalize (path : String) : String :=
  "/" ++ String.intercalate "/" (pathParts path)

/-- dirname of the panel path utilities. -/
def dirname (path : String) : String :=
  let parts := pathParts (normalize path)
  if parts.length ≤ 1 then "/"
  else "/" ++ String.intercalate "/" parts.dropLast

/-- basename of the panel path utilities; `ext` is the optional
extension argument, stripped when the name ends with it. -/
def basename (path : String) (ext : Option String) : String :=
  let parts := pathParts (normalize path)
  let name := match parts.getLast? with
    | some n => n
    | none => ""
  match ext with
  | some e => if e ≠ "" ∧ name.endsWith e then name.dropRight e.length else name
  | none => name

/-- A node of the origin-private file system: a file with byte content,
or a directory with its children in insertion order. -/
inductive Node where
  | file (content : List Nat) : Node
  | dir (entries : List (String × Node)) : Node

/-- The children of one directory; the whole store is the entry list of
the root directory handle. -/
abbrev Entries := List (String × Node)

/-- Lookup of a named child, as FileSystemDirectoryHandle resolves a
name (first match; real stores have unique names). -/
def lookupEntry : Entries → String → Option Node
  | [], _ => none
  | (k, v) :: rest, name => if k = name then some v else lookupEntry rest name

/-- Creating or replacing the named child in place, as getFileHandle or
getDirectoryHandle with create behaves: an existing name keeps its
position, a new name is appended in iteration order. -/
def setEntry : Entries → String → Node → Entries
  | [], name, n => [(name, n)]
  | (k, v) :: rest, name, n =>
    if k = name then (k, n) :: rest else (k, v) :: setEntry rest name n

/-- removeEntry on a directory handle: the named child disappears. -/
def removeEntryList : Entries → String → Entries
  | [], _ => []
  | (k, v) :: rest, name => if k = name then rest else (k, v) :: removeEntryList rest name

/-- Pure descent through the tree along a segment list (specification
helper used to state what the walks compute). -/
def nodeAt : Node → List String → Option Node
  | n, [] => some n
  | Node.dir es, seg :: rest =>
    match lookupEntry es seg with
    | some m => nodeAt m rest
    | none => none
  | Node.file _, _ :: _ => none

/-- Descent starting from the root directory. -/
def rootAt (s : Entries) (segs : List String) : Option Node :=
  nodeAt (Node.dir s) segs

/-- The child-name list of a directory node, used to compare child-name
sets of resolved entries. -/
def childNames : Option Node → Option (List String)
  | some (Node.dir es) => some (es.map Prod.fst)
  | _ => none

/-- A native exception as the handler sees it: constructor name,
message, stack. -/
structure JsErr where
  name : String
  message : String
  stack : Option String
deriving DecidableEq, Repr

/-- DOMException NotFoundError thrown by the handle-resolution calls. -/
def notFoundError : JsErr :=
  ⟨"NotFoundError", "A requested file or directory could not be found.", some "NotFoundError stack"⟩

/-- DOMException TypeMismatchError: the entry exists but has the other
kind. -/
def typeMismatchError : JsErr :=
  ⟨"TypeMismatchError", "The path supplied exists, but was not an entry of requested type.", some "TypeMismatchError stack"⟩

/-- DOMException InvalidModificationError: non-recursive removal of a
non-empty directory. -/
def invalidModificationError : JsErr :=
  ⟨"InvalidModificationError", "An attempt was made to remove a non-empty directory without the recursive option.", some "InvalidModificationError stack"⟩

/-- TypeError thrown by removeEntry when the name is not a valid entry
name (the empty basename of the root path). -/
def nameNotAllowedError : JsErr :=
  ⟨"TypeError", "Name is not allowed.", some "TypeError stack"⟩

/-- The plain Error thrown by getFileHandle when the path has no
segments. -/
def invalidFilePathError : JsErr :=
  ⟨"Error", "Invalid file path", some "Error stack"⟩

/-- RangeError raised when the recursive copy exceeds the call stack;
the Lean embedding makes the stack bound an explicit fuel argument. -/
def stackOverflowError : JsErr :=
  ⟨"RangeError", "Maximum call stack size exceeded", some "RangeError stack"⟩

/-- String(e) for an Error value: the name, with the message appended
when non-empty. Used wherever the source string-coerces an exception
(`err.message || e` and the catch block's message fallback). -/
def errString (e : JsErr) : String :=
  if e.message = "" then e.name else e.name ++ ": " ++ e.message

/-- getHandleAtPath(root, path) with default options: walks all but the
last segment as directories, then probes the last segment as a
directory first, falling back to a file; an empty segment list is the
root itself. A missing final entry surfaces as NotFoundError from the
file fallback. -/
def nodeAtSegs : List String → Entries → Except JsErr Node
  | [], es => .ok (Node.dir es)
  | seg :: rest, es =>
    match lookupEntry es seg, rest with
    | some n, [] => .ok n
    | some (Node.dir sub), _ :: _ => nodeAtSegs rest sub
    | some (Node.file _), _ :: _ => .error typeMismatchError
    | none, _ => .error notFoundError

/-- getDirectoryHandle(root, path) with create=false: one directory
level per segment; a file on the way is TypeMismatchError, a missing
entry NotFoundError. The source's early return for "/" and "" is the
empty-segment case. -/
def dirAtSegs : List String → Entries → Except JsErr Entries
  | [], es => .ok es
  | seg :: rest, es =>
    match lookupEntry es seg with
    | some (Node.dir sub) => dirAtSegs rest sub
    | some (Node.file _) => .error typeMismatchError
    | none => .error notFoundError

/-- getDirectoryHandle from the root by path string. -/
def getDirectoryHandle (path : String) (s : Entries) : Except JsErr Entries :=
  dirAtSegs (pathParts path) s

/-- getDirectoryHandle(root, path, create=true), as used by mkdir:
walks the segments creating every missing level. -/
def mkdirSegs : List String → Entries → Except JsErr Entries
  | [], es => .ok es
  | seg :: rest, es =>
    match lookupEntry es seg with
    | some (Node.dir sub) =>
      match mkdirSegs rest sub with
      | .error e => .error e
      | .ok sub2 => .ok (setEntry es seg (Node.dir sub2))
    | some (Node.file _) => .error typeMismatchError
    | none =>
      match mkdirSegs rest [] with
      | .error e => .error e
      | .ok sub2 => .ok (setEntry es seg (Node.dir sub2))

/-- fs.mkdir: create all missing intermediate directories plus the
final one. -/
def mkdir (path : String) (s : Entries) : Except JsErr Entries :=
  mkdirSegs (pathParts path) s

/-- getFileHandle(root, path, create=false) followed by getFile():
returns the byte content of the file at the path. -/
def readFileSegs : List String → Entries → Except JsErr (List Nat)
  | [], _ => .error invalidFilePathError
  | [name], es =>
    match lookupEntry es name with
    | some (Node.file c) => .ok c
    | some (Node.dir _) => .error typeMismatchError
    | none => .error notFoundError
  | seg :: rest, es =>
    match lookupEntry es seg with
    | some (Node.dir sub) => readFileSegs rest sub
    | some (Node.file _) => .error typeMismatchError
    | none => .error notFoundError

/-- getFileHandle(root, path, create=true) followed by createWritable,
write, close: intermediate directories are created, the final file is
created if absent, and its whole content becomes the written bytes. -/
def writeFileSegs (content : List Nat) : List String → Entries → Except JsErr Entries
  | [], _ => .error invalidFilePathError
  | [name], es =>
    match lookupEntry es name with
    | some (Node.file _) => .ok (setEntry es name (Node.file content))
    | some (Node.dir _) => .error typeMismatchError
    | none => .ok (setEntry es name (Node.file content))
  | seg :: rest, es =>
    match lookupEntry es seg with
    | some (Node.dir sub) =>
      match writeFileSegs content rest sub with
      | .error e => .error e
      | .ok sub2 => .ok (setEntry es seg (Node.dir sub2))
    | some (Node.file _) => .error typeMismatchError
    | none =>
      match writeFileSegs content rest [] with
      | .error e => .error e
      | .ok sub2 => .ok (setEntry es seg (Node.dir sub2))

/-- fs.createFile: getFileHandle(root, path, create=true) and nothing
else — an existing file keeps its content. -/
def createFileSegs : List String → Entries → Except JsErr Entries
  | [], _ => .error invalidFilePathError
  | [name], es =>
    match lookupEntry es name with
    | some (Node.file _) => .ok es
    | some (Node.dir _) => .error typeMismatchError
    | none => .ok (setEntry es name (Node.file []))
  | seg :: rest, es =>
    match lookupEntry es seg with
    | some (Node.dir sub) =>
      match createFileSegs rest sub with
      | .error e => .error e
      | .ok sub2 => .ok (setEntry es seg (Node.dir sub2))
    | some (Node.file _) => .error typeMismatchError
    | none =>
      match createFileSegs rest [] with
      | .error e => .error e
      | .ok sub2 => .ok (setEntry es seg (Node.dir sub2))

/-- fs.createFile by path string. -/
def createFile (path : String) (s : Entries) : Except JsErr Entries :=
  createFileSegs (pathParts path) s

/-- The readText default cap: 2 MiB. -/
def TEXT_CAP : Nat := 2 * 1024 * 1024

/-- The readBase64 default cap: 10 MiB. -/
def BASE64_CAP : Nat := 10 * 1024 * 1024

/-- Result shape of fs.readText. -/
structure ReadTextResult where
  text : List Nat
  truncated : Bool
deriving DecidableEq, Repr

/-- The effective cap computed by `maxBytes || DEFAULT`: undefined and
the falsy 0 both select the default. -/
def effCap (dflt : Nat) : Option Nat → Nat
  | none => dflt
  | some 0 => dflt
  | some (m + 1) => m + 1

/-- fs.readText: reads the file, slices the first max bytes when the
size exceeds the cap, and reports whether it truncated. -/
def readText (path : String) (maxBytes : Option Nat) (s : Entries) :
    Except JsErr ReadTextResult :=
  match readFileSegs (pathParts path) s with
  | .error e => .error e
  | .ok c =>
    let max := effCap TEXT_CAP maxBytes
    .ok ⟨if max < c.length then c.take max else c, decide (max < c.length)⟩

/-- fs.writeText: write the full text and close the stream. -/
def writeText (path : String) (text : List Nat) (s : Entries) : Except JsErr Entries :=
  writeFileSegs text (pathParts path) s

/-- The fixed extension-to-MIME table of getMimeType. -/
def mimeTypes : List (String × String) :=
  [("png", "image/png"), ("jpg", "image/jpeg"), ("jpeg", "image/jpeg"),
   ("gif", "image/gif"), ("webp", "image/webp"), ("svg", "image/svg+xml"),
   ("ico", "image/x-icon"), ("bmp", "image/bmp"), ("txt", "text/plain"),
   ("md", "text/markdown"), ("json", "application/json"), ("js", "text/javascript"),
   ("ts", "text/typescript"), ("jsx", "text/javascript"), ("tsx", "text/typescript"),
   ("css", "text/css"), ("html", "text/html"), ("xml", "text/xml"),
   ("yaml", "text/yaml"), ("yml", "text/yaml"), ("csv", "text/csv"),
   ("pdf", "application/pdf"), ("zip", "application/zip"), ("mp3", "audio/mpeg"),
   ("wav", "audio/wav"), ("ogg", "audio/ogg"), ("mp4", "video/mp4"),
   ("webm", "video/webm")]

/-- Character-wise toLowerCase (String.toLower restated so it reduces
in the kernel). -/
def toLowerStr (s : String) : String := String.mk (s.data.map Char.toLower)

/-- getMimeType: last dot-separated piece of the filename, lowercased,
looked up in the fixed table, defaulting to application/octet-stream. -/
def getMimeType (filename : String) : String :=
  let ext := match (splitChar '.' filename).getLast? with
    | some e => toLowerStr e
    | none => ""
  match mimeTypes.lookup ext with
  | some m => m
  | none => "application/octet-stream"

/-- The kind field of stat and list results. -/
inductive EntryKind where
  | file
  | directory
deriving DecidableEq, Repr

/-- Result shape of fs.stat. Directories report size 0; lastModified is
wall-clock time and is not tracked by the model. -/
structure StatResult where
  kind : EntryKind
  size : Nat
  mimeType : Option String
deriving DecidableEq, Repr

/-- fs.stat: resolve the handle at the path (directory probe first,
file fallback) and describe it. -/
def stat (path : String) (s : Entries) : Except JsErr StatResult :=
  match nodeAtSegs (pathParts path) s with
  | .error e => .error e
  | .ok (Node.dir _) => .ok ⟨.directory, 0, none⟩
  | .ok (Node.file c) => .ok ⟨.file, c.length, some (getMimeType (getBasename path))⟩

/-- Result shape of fs.readBase64; the base64 payload is modelled as
the encoded byte sequence itself. -/
structure ReadBase64Result where
  base64 : List Nat
  mimeType : String
  truncated : Bool
deriving DecidableEq, Repr

/-- fs.readBase64: same slicing contract as readText with the 10 MiB
default cap, plus the MIME type inferred from the name. -/
def readBase64 (path : String) (maxBytes : Option Nat) (s : Entries) :
    Except JsErr ReadBase64Result :=
  match readFileSegs (pathParts path) s with
  | .error e => .error e
  | .ok c =>
    let max := effCap BASE64_CAP maxBytes
    .ok ⟨if max < c.length then c.take max else c, getMimeType (getBasename path),
      decide (max < c.length)⟩

/-- fs.writeBase64: decode and write the bytes. -/
def writeBase64 (path : String) (base64 : List Nat) (s : Entries) : Except JsErr Entries :=
  writeFileSegs base64 (pathParts path) s

/-- parent.removeEntry(name, recursive): missing name is NotFoundError,
a non-empty directory without recursive is InvalidModificationError,
and the invalid empty name (basename of the root) is a TypeError. -/
def removeEntryOp (name : String) (recursive : Bool) (es : Entries) : Except JsErr Entries :=
  if name = "" then .error nameNotAllowedError
  else
    match lookupEntry es name with
    | none => .error notFoundError
    | some (Node.file _) => .ok (removeEntryList es name)
    | some (Node.dir sub) =>
      if recursive then .ok (removeEntryList es name)
      else if sub.isEmpty then .ok (removeEntryList es name)
      else .error invalidModificationError

/-- The walk of deleteEntry: resolve the parent directory (create
false) and remove the named child there. -/
def delSegs (name : String) (recursive : Bool) : List String → Entries → Except JsErr Entries
  | [], es => removeEntryOp name recursive es
  | seg :: rest, es =>
    match lookupEntry es seg with
    | some (Node.dir sub) =>
      match delSegs name recursive rest sub with
      | .error e => .error e
      | .ok sub2 => .ok (setEntry es seg (Node.dir sub2))
    | some (Node.file _) => .error typeMismatchError
    | none => .error notFoundError

/-- fs.delete: getParentPath / getBasename recompute the split of the
same path, so the parent walk uses the segments minus the last and the
removed name is the last segment (segment lists and basenames agree
because entry names never contain a slash). -/
def deleteEntry (path : String) (recursive : Bool) (s : Entries) : Except JsErr Entries :=
  delSegs (getBasename path) recursive (pathParts path).dropLast s

/-- The two shapes of work inside the recursive copy: copying one entry
(copyEntry(from, to)) and the loop over a directory's child names. -/
inductive CopyJob where
  | entry (fs ts : List String)
  | children (fs ts : List String) (names : List String)

/-- copyEntry of the source, with the JavaScript call stack made an
explicit fuel bound (the source recurses unboundedly and overflows the
stack on self-overlapping copies). A file source is read whole and
written to the destination (creating it); a directory source is
mkdir'ed at the destination, then every child name is copied in
iteration order. The source appends one name per level to the path
strings; since OPFS entry names are nonempty and never contain a
slash, that is exactly appending one segment, which is how the
embedding recurses. The child-name snapshot is taken after the mkdir,
matching when the source starts iterating entries(). The _overwrite
flag is carried exactly as in the source: passed along, never read. -/
def copyGo (ow : Bool) : Nat → CopyJob → Entries → Except JsErr Entries
  | 0, _, _ => .error stackOverflowError
  | fuel + 1, .entry fs ts, s =>
    match nodeAtSegs fs s with
    | .error e => .error e
    | .ok (Node.file c) => writeFileSegs c ts s
    | .ok (Node.dir _) =>
      match mkdirSegs ts s with
      | .error e => .error e
      | .ok s1 =>
        match dirAtSegs fs s1 with
        | .error e => .error e
        | .ok es => copyGo ow fuel (.children fs ts (es.map Prod.fst)) s1
  | _ + 1, .children _ _ [], s => .ok s
  | fuel + 1, .children fs ts (name :: rest), s =>
    match copyGo ow fuel (.entry (fs ++ [name]) (ts ++ [name])) s with
    | .error e => .error e
    | .ok s2 => copyGo ow fuel (.children fs ts rest) s2

/-- fs.copy by path strings. -/
def copyEntry (fuel : Nat) («from» «to» : String) (overwrite : Bool) (s : Entries) :
    Except JsErr Entries :=
  copyGo overwrite fuel (.entry (pathParts «from») (pathParts «to»)) s

/-- fs.move: copyEntry then deleteEntry(from, recursive=true). -/
def moveEntry (fuel : Nat) («from» «to» : String) (overwrite : Bool) (s : Entries) :
    Except JsErr Entries :=
  match copyEntry fuel «from» «to» overwrite s with
  | .error e => .error e
  | .ok s1 => deleteEntry «from» true s1

/-- One serializable child description produced by fs.list.
(lastModified is wall-clock environment data and is left out of the
model; every other field is tracked.) -/
inductive FSEntry where
  | mk (name : String) (path : String) (kind : EntryKind) (size : Option Nat)
      (mimeType : Option String) (children : Option (List FSEntry)) : FSEntry

/-- The name field. -/
def FSEntry.name : FSEntry → String
  | .mk n _ _ _ _ _ => n

/-- The absolute path field. -/
def FSEntry.path : FSEntry → String
  | .mk _ p _ _ _ _ => p

/-- The kind field. -/
def FSEntry.kind : FSEntry → EntryKind
  | .mk _ _ k _ _ _ => k

/-- The optional size field (files only). -/
def FSEntry.size : FSEntry → Option Nat
  | .mk _ _ _ sz _ _ => sz

/-- The optional mimeType field (files only). -/
def FSEntry.mimeType : FSEntry → Option String
  | .mk _ _ _ _ m _ => m

/-- The optional children field (directories listed with depth > 1). -/
def FSEntry.children : FSEntry → Option (List FSEntry)
  | .mk _ _ _ _ _ c => c

/-- The loop body of list over a directory's entries: skip filtered
kinds, emit file entries with size and MIME type, emit directory
entries, recursing through `rec` exactly when the caller still has
depth to spend. -/
def listEntries (incF incD : Bool) (rec : Option (String → Except JsErr (List FSEntry)))
    (path : String) : List (String × Node) → Except JsErr (List FSEntry)
  | [] => .ok []
  | (name, node) :: rest =>
    let entryPath := if path = "/" then "/" ++ name else path ++ "/" ++ name
    match node with
    | Node.file c =>
      if incF then
        match listEntries incF incD rec path rest with
        | .error e => .error e
        | .ok tl => .ok (.mk name entryPath .file (some c.length) (some (getMimeType name)) none :: tl)
      else listEntries incF incD rec path rest
    | Node.dir _ =>
      if incD then
        match rec with
        | some r =>
          match r entryPath with
          | .error e => .error e
          | .ok ch =>
            match listEntries incF incD rec path rest with
            | .error e => .error e
            | .ok tl => .ok (.mk name entryPath .directory none none (some ch) :: tl)
        | none =>
          match listEntries incF incD rec path rest with
          | .error e => .error e
          | .ok tl => .ok (.mk name entryPath .directory none none none :: tl)
      else listEntries incF incD rec path rest

/-- One invocation of list at a fixed depth: resolve the directory and
walk its entries. -/
def listCore (s : Entries) (incF incD : Bool)
    (rec : Option (String → Except JsErr (List FSEntry))) (path : String) :
    Except JsErr (List FSEntry) :=
  match dirAtSegs (pathParts path) s with
  | .error e => .error e
  | .ok es => listEntries incF incD rec path es

/-- fs.list(path, depth, includeFiles, includeDirs). The source
recurses with depth - 1 exactly when depth > 1; the Nat recursor below
is that recursion: at depth d + 1 the directory children use the
function at depth d when d > 0 and are left unpopulated when d = 0
(depth 1), and depth 0 also does not recurse. The store is read-only
throughout, so every nested call sees the same root. -/
def list (s : Entries) (incF incD : Bool) (depth : Nat) (path : String) :
    Except JsErr (List FSEntry) :=
  Nat.rec (motive := fun _ => String → Except JsErr (List FSEntry))
    (listCore s incF incD none)
    (fun d ih => listCore s incF incD (if d = 0 then none else some ih))
    depth path

/-- The platform inputs consulted by isAvailable and estimate: whether
the navigator object has a storage member, whether navigator.storage
has a getDirectory member, the outcome of awaiting
navigator.storage.getDirectory() (`none` means it resolves; `some e`
the exception it rejects with), and the outcome of
navigator.storage.estimate() — which may reject, and whose usage and
quota members may each be absent. The `s : Entries` argument of the
filesystem commands is the tree behind the root handle that a
resolving getDirectory() returns. -/
structure Env where
  hasStorage : Bool
  hasGetDirectory : Bool
  getDirectoryError : Option JsErr
  estimateResult : Except JsErr (Option Nat × Option Nat)

/-- Result of opfs.isAvailable. -/
structure AvailResult where
  available : Bool
  reason : Option String
deriving DecidableEq, Repr

/-- isAvailable of the source: fails with a reason when navigator has
no storage member or navigator.storage has no getDirectory member;
otherwise attempts getDirectory(), catching a rejection into
available: false with reason `Cannot access OPFS: ` plus
`err.message || e` (the string coercion when the message is falsy).
It never throws. -/
def isAvailable (env : Env) : AvailResult :=
  if !env.hasStorage then ⟨false, some "Storage API not available"⟩
  else if !env.hasGetDirectory then ⟨false, some "OPFS not supported"⟩
  else
    match env.getDirectoryError with
    | none => ⟨true, none⟩
    | some e =>
      ⟨false, some ("Cannot access OPFS: " ++
        (if e.message = "" then errString e else e.message))⟩

/-- Result of opfs.estimate. -/
structure EstimateResult where
  usage : Nat
  quota : Nat
deriving DecidableEq, Repr

/-- estimate of the source: awaits navigator.storage.estimate() — a
rejection propagates out of the handler into the catch boundary — and
zero-fills each absent figure (`est.usage || 0`, `est.quota || 0`). -/
def estimate (env : Env) : Except JsErr EstimateResult :=
  match env.estimateResult with
  | .error e => .error e
  | .ok (usage, quota) => .ok ⟨usage.getD 0, quota.getD 0⟩

/-- The untyped parameter record of one RPC command, with absent
members as `none` (JavaScript undefined). -/
structure Params where
  path : String
  «from» : String
  «to» : String
  text : List Nat
  base64 : List Nat
  maxBytes : Option Nat
  depth : Option Nat
  includeFiles : Option Bool
  includeDirs : Option Bool
  recursive : Option Bool
  overwrite : Option Bool

/-- A Params record with everything absent or empty. -/
def Params.empty : Params :=
  ⟨"", "", "", [], [], none, none, none, none, none, none⟩

/-- The data payload of a successful RPC response. -/
inductive Value where
  | null : Value
  | entries (l : List FSEntry) : Value
  | statR (r : StatResult) : Value
  | readTextR (r : ReadTextResult) : Value
  | readB64R (r : ReadBase64Result) : Value
  | availR (r : AvailResult) : Value
  | estimateR (r : EstimateResult) : Value

/-- The error member of a failed RPC response. -/
structure RPCError where
  code : String
  message : String
  details : Option String
deriving DecidableEq, Repr

/-- The RPC response union: ok with data, or an error record. -/
inductive RPCResponse where
  | ok (data : Value) : RPCResponse
  | err (e : RPCError) : RPCResponse

/-- The fixed exception-name-to-code table of the catch block, in
source order. -/
def errName2code (name : String) : String :=
  if name = "NotFoundError" then "NOT_FOUND"
  else if name = "NotAllowedError" then "NOT_ALLOWED"
  else if name = "InvalidModificationError" then "INVALID_MODIFICATION"
  else if name = "NoModificationAllowedError" then "LOCKED"
  else if name = "TypeMismatchError" then "TYPE_MISMATCH"
  else "UNKNOWN_ERROR"

/-- The closed thirteen-command vocabulary of the switch. -/
def commandNames : List String :=
  ["opfs.isAvailable", "opfs.estimate", "fs.list", "fs.stat", "fs.readText",
   "fs.writeText", "fs.readBase64", "fs.writeBase64", "fs.mkdir", "fs.createFile",
   "fs.delete", "fs.copy", "fs.move"]

/-- The switch body of window.__OPFS_HANDLER__ before the catch: `none`
is the default branch (unknown command); otherwise the command runs
against the store and yields its data and the successor store, or the
exception it threw. Parameter coercions follow the source: depth is
`(params.depth as number) || 1`, include flags are `!== false`,
recursive and overwrite default to false. -/
def runCommand (env : Env) (fuel : Nat) (cmd : String) (p : Params) (s : Entries) :
    Option (Except JsErr (Value × Entries)) :=
  if cmd = "opfs.isAvailable" then some (.ok (.availR (isAvailable env), s))
  else if cmd = "opfs.estimate" then
    some ((estimate env).map (fun r => (.estimateR r, s)))
  else if cmd = "fs.list" then
    some ((list s (p.includeFiles ≠ some false) (p.includeDirs ≠ some false)
      (effCap 1 p.depth) p.path).map (fun l => (.entries l, s)))
  else if cmd = "fs.stat" then some ((stat p.path s).map (fun r => (.statR r, s)))
  else if cmd = "fs.readText" then
    some ((readText p.path p.maxBytes s).map (fun r => (.readTextR r, s)))
  else if cmd = "fs.writeText" then
    some ((writeText p.path p.text s).map (fun s2 => (.null, s2)))
  else if cmd = "fs.readBase64" then
    some ((readBase64 p.path p.maxBytes s).map (fun r => (.readB64R r, s)))
  else if cmd = "fs.writeBase64" then
    some ((writeBase64 p.path p.base64 s).map (fun s2 => (.null, s2)))
  else if cmd = "fs.mkdir" then some ((mkdir p.path s).map (fun s2 => (.null, s2)))
  else if cmd = "fs.createFile" then some ((createFile p.path s).map (fun s2 => (.null, s2)))
  else if cmd = "fs.delete" then
    some ((deleteEntry p.path (p.recursive.getD false) s).map (fun s2 => (.null, s2)))
  else if cmd = "fs.copy" then
    some ((copyEntry fuel p.«from» p.«to» (p.overwrite.getD false) s).map (fun s2 => (.null, s2)))
  else if cmd = "fs.move" then
    some ((moveEntry fuel p.«from» p.«to» (p.overwrite.getD false) s).map (fun s2 => (.null, s2)))
  else none

/-- window.__OPFS_HANDLER__: run the command; the default switch branch
returns the UNKNOWN_COMMAND error, and the catch block converts a
thrown exception into the tagged error record with the mapped code,
err.message falling back to String(e), and the stack as details. The
handler is a total function: no exception escapes it. -/
def OPFS_HANDLER (env : Env) (fuel : Nat) (cmd : String) (p : Params) (s : Entries) :
    RPCResponse × Entries :=
  match runCommand env fuel cmd p s with
  | some (.ok (v, s2)) => (.ok v, s2)
  | some (.error e) =>
    (.err ⟨errName2code e.name, if e.message = "" then errString e else e.message, e.stack⟩, s)
  | none => (.err ⟨"UNKNOWN_COMMAND", "Unknown command: " ++ cmd, none⟩, s)

/-- Specification helper: functional update of the tree at a nonempty
path, creating intermediate levels as directories (the shape every
successful creating walk leaves behind). -/
def setPathE : Entries → List String → Node → Entries
  | es, [], _ => es
  | es, [name], n => setEntry es name n
  | es, seg :: rest, n =>
    match lookupEntry es seg with
    | some (Node.dir sub) => setEntry es seg (Node.dir (setPathE sub rest n))
    | _ => setEntry es seg (Node.dir (setPathE [] rest n))

/-- Two segment lists head for different subtrees: they disagree at
some index below both lengths (equivalently, neither is a prefix of
the other). -/
def Diverge (a b : List String) : Prop :=
  ∃ i, i < a.length ∧ i < b.length ∧ a[i]? ≠ b[i]?

/-- Well-formedness of a store subtree: directory child names are
unique at every level, which real OPFS directories guarantee. -/
inductive NodeWF : Node → Prop
  | file (c : List Nat) : NodeWF (Node.file c)
  | dir (es : Entries) : (es.map Prod.fst).Nodup →
      (∀ k v, (k, v) ∈ es → NodeWF v) → NodeWF (Node.dir es)

/-- Depth-bounded boolean check of NodeWF, used to discharge concrete
well-formedness by evaluation. -/
def nodeWfN : Nat → Node → Bool
  | _, Node.file _ => true
  | 0, Node.dir _ => false
  | fuel + 1, Node.dir es =>
    decide ((es.map Prod.fst).Nodup) && es.all (fun p => nodeWfN fuel p.2)

/-! ### Association-list lemmas -/

theorem lookupEntry_setEntry_self (es : Entries) (k : String) (v : Node) :
    lookupEntry (setEntry es k v) k = some v := by
  induction es with
  | nil => simp [setEntry, lookupEntry]
  | cons p rest ih =>
    obtain ⟨k0, v0⟩ := p
    by_cases h : k0 = k
    · simp [setEntry, h, lookupEntry]
    · simp [setEntry, h, lookupEntry, ih]

theorem lookupEntry_setEntry_of_ne (es : Entries) (k k2 : String) (v : Node)
    (h : k ≠ k2) : lookupEntry (setEntry es k v) k2 = lookupEntry es k2 := by
  induction es with
  | nil => simp [setEntry, lookupEntry, h]
  | cons p rest ih =>
    obtain ⟨k0, v0⟩ := p
    by_cases h0 : k0 = k
    · subst h0
      simp [setEntry, lookupEntry, h]
    · simp [setEntry, h0, lookupEntry, ih]

theorem setEntry_setEntry (es : Entries) (k : String) (v w : Node) :
    setEntry (setEntry es k v) k w = setEntry es k w := by
  induction es with
  | nil => simp [setEntry]
  | cons p rest ih =>
    obtain ⟨k0, v0⟩ := p
    by_cases h : k0 = k
    · simp [setEntry, h]
    · simp [setEntry, h, ih]

theorem setEntry_of_lookup_dir (es : Entries) (k : String) (sub : Entries)
    (h : lookupEntry es k = some (Node.dir sub)) :
    setEntry es k (Node.dir sub) = es := by
  induction es with
  | nil => simp [lookupEntry] at h
  | cons p rest ih =>
    obtain ⟨k0, v0⟩ := p
    by_cases h0 : k0 = k
    · subst h0
      simp [lookupEntry] at h
      simp [setEntry, h]
    · simp [lookupEntry, h0] at h
      simp [setEntry, h0, ih h]

theorem setEntry_eq_append (es : Entries) (k : String) (v : Node)
    (h : lookupEntry es k = none) : setEntry es k v = es ++ [(k, v)] := by
  induction es with
  | nil => simp [setEntry]
  | cons p rest ih =>
    obtain ⟨k0, v0⟩ := p
    by_cases h0 : k0 = k
    · simp [lookupEntry, h0] at h
    · simp [lookupEntry, h0] at h
      simp [setEntry, h0, ih h]

theorem lookupEntry_append_of_none (a b : Entries) (k : String)
    (h : lookupEntry a k = none) : lookupEntry (a ++ b) k = lookupEntry b k := by
  induction a with
  | nil => simp
  | cons p rest ih =>
    obtain ⟨k0, v0⟩ := p
    by_cases h0 : k0 = k
    · simp [lookupEntry, h0] at h
    · simp [lookupEntry, h0] at h ⊢
      exact ih h

theorem lookupEntry_eq_none_iff (es : Entries) (k : String) :
    lookupEntry es k = none ↔ k ∉ es.map Prod.fst := by
  induction es with
  | nil => simp [lookupEntry]
  | cons p rest ih =>
    obtain ⟨k0, v0⟩ := p
    by_cases h0 : k0 = k
    · simp [lookupEntry, h0]
    · simp only [lookupEntry, if_neg h0, ih, List.map_cons, List.mem_cons]
      constructor
      · intro hn hor
        rcases hor with h | h
        · exact h0 h.symm
        · exact hn h
      · intro hn hmem
        exact hn (Or.inr hmem)

theorem lookupEntry_mem (es : Entries) (k : String) (v : Node)
    (h : lookupEntry es k = some v) : (k, v) ∈ es := by
  induction es with
  | nil => simp [lookupEntry] at h
  | cons p rest ih =>
    obtain ⟨k0, v0⟩ := p
    by_cases h0 : k0 = k
    · subst h0
      simp [lookupEntry] at h
      simp [h]
    · simp [lookupEntry, h0] at h
      exact List.mem_cons_of_mem _ (ih h)

theorem lookupEntry_removeEntryList_of_ne (es : Entries) (k k2 : String)
    (h : k ≠ k2) : lookupEntry (removeEntryList es k) k2 = lookupEntry es k2 := by
  induction es with
  | nil => simp [removeEntryList]
  | cons p rest ih =>
    obtain ⟨k0, v0⟩ := p
    by_cases h0 : k0 = k
    · subst h0
      simp [removeEntryList, lookupEntry, h]
    · simp [removeEntryList, h0, lookupEntry, ih]

theorem lookupEntry_removeEntryList_self (es : Entries) (k : String)
    (h : (es.map Prod.fst).Nodup) :
    lookupEntry (removeEntryList es k) k = none := by
  induction es with
  | nil => simp [removeEntryList, lookupEntry]
  | cons p rest ih =>
    obtain ⟨k0, v0⟩ := p
    simp only [List.map_cons, List.nodup_cons] at h
    by_cases h0 : k0 = k
    · subst h0
      simp only [removeEntryList, if_pos rfl]
      rw [lookupEntry_eq_none_iff]
      simpa using h.1
    · simp [removeEntryList, h0, lookupEntry, ih h.2]

theorem mem_keys_setEntry (es : Entries) (k k2 : String) (v : Node)
    (h : k2 ∈ (setEntry es k v).map Prod.fst) :
    k2 ∈ es.map Prod.fst ∨ k2 = k := by
  induction es with
  | nil =>
    simp only [setEntry, List.map_cons, List.map_nil, List.mem_singleton] at h
    exact Or.inr h
  | cons p rest ih =>
    obtain ⟨k0, v0⟩ := p
    by_cases h0 : k0 = k
    · subst h0
      simp only [setEntry, if_pos rfl, List.map_cons, List.mem_cons] at h
      exact Or.inl (by simpa using h)
    · simp only [setEntry, if_neg h0, List.map_cons, List.mem_cons] at h
      rcases h with h | h
      · exact Or.inl (by simp [h])
      · rcases ih h with h2 | h2
        · exact Or.inl (by simp [h2])
        · exact Or.inr h2

theorem mem_setEntry (es : Entries) (k k2 : String) (v v2 : Node)
    (h : (k2, v2) ∈ setEntry es k v) : (k2, v2) = (k, v) ∨ (k2, v2) ∈ es := by
  induction es with
  | nil => simpa [setEntry] using h
  | cons p rest ih =>
    obtain ⟨k0, v0⟩ := p
    by_cases h0 : k0 = k
    · subst h0
      simp [setEntry] at h
      rcases h with ⟨h1, h2⟩ | h
      · exact Or.inl (by simp [h1, h2])
      · exact Or.inr (List.mem_cons_of_mem _ h)
    · simp only [setEntry, if_neg h0, List.mem_cons] at h
      rcases h with h | h
      · exact Or.inr (by simp [h])
      · rcases ih h with h2 | h2
        · exact Or.inl h2
        · exact Or.inr (List.mem_cons_of_mem _ h2)

/-! ### Well-formedness lemmas -/

theorem NodeWF.nodup {es : Entries} (h : NodeWF (Node.dir es)) :
    (es.map Prod.fst).Nodup := by
  cases h with
  | dir _ hn _ => exact hn

theorem NodeWF.child {es : Entries} (h : NodeWF (Node.dir es)) {k : String} {v : Node}
    (hm : (k, v) ∈ es) : NodeWF v := by
  cases h with
  | dir _ _ hc => exact hc k v hm

theorem NodeWF.lookup {es : Entries} (h : NodeWF (Node.dir es)) {k : String} {v : Node}
    (hl : lookupEntry es k = some v) : NodeWF v :=
  h.child (lookupEntry_mem es k v hl)

theorem nodeWF_nil : NodeWF (Node.dir []) := by
  exact NodeWF.dir [] (by simp) (by simp)

theorem nodeWF_setEntry {es : Entries} (h : NodeWF (Node.dir es)) {v : Node}
    (hv : NodeWF v) (k : String) : NodeWF (Node.dir (setEntry es k v)) := by
  refine NodeWF.dir _ ?_ ?_
  · have hn := h.nodup
    clear h
    induction es with
    | nil => simp [setEntry]
    | cons p rest ih =>
      obtain ⟨k0, v0⟩ := p
      simp only [List.map_cons, List.nodup_cons] at hn
      by_cases h0 : k0 = k
      · subst h0
        simpa [setEntry, List.nodup_cons] using hn
      · simp only [setEntry, if_neg h0, List.map_cons, List.nodup_cons]
        refine ⟨?_, ih hn.2⟩
        intro hmem
        rcases mem_keys_setEntry rest k k0 v hmem with h2 | h2
        · exact hn.1 h2
        · exact h0 h2
  · intro k2 v2 hm
    rcases mem_setEntry es k k2 v v2 hm with h2 | h2
    · cases h2
      exact hv
    · exact h.child h2

theorem nodeWF_of_nodeWfN : ∀ (d : Nat) (n : Node), nodeWfN d n = true → NodeWF n := by
  intro d
  induction d with
  | zero =>
    intro n h
    cases n with
    | file c => exact NodeWF.file c
    | dir es => simp [nodeWfN] at h
  | succ d ih =>
    intro n h
    cases n with
    | file c => exact NodeWF.file c
    | dir es =>
      simp only [nodeWfN, Bool.and_eq_true, List.all_eq_true, decide_eq_true_eq] at h
      refine NodeWF.dir es h.1 ?_
      intro k v hm
      exact ih _ (h.2 (k, v) hm)

/-! ### Tree descent lemmas -/

theorem nodeAt_append (a b : List String) : ∀ (n : Node),
    nodeAt n (a ++ b) = (nodeAt n a).bind (fun m => nodeAt m b) := by
  induction a with
  | nil => intro n; simp [nodeAt]
  | cons x a ih =>
    intro n
    cases n with
    | file c => simp [nodeAt]
    | dir es =>
      simp only [List.cons_append, nodeAt]
      cases lookupEntry es x with
      | none => simp
      | some m => simpa using ih m

theorem rootAt_append (s : Entries) (a b : List String) :
    rootAt s (a ++ b) = (rootAt s a).bind (fun m => nodeAt m b) :=
  nodeAt_append a b (Node.dir s)

theorem rootAt_nil (s : Entries) : rootAt s [] = some (Node.dir s) := rfl

theorem nodeWF_nodeAt {n : Node} (h : NodeWF n) : ∀ (q : List String) {m : Node},
    nodeAt n q = some m → NodeWF m := by
  induction h with
  | file c =>
    intro q m hq
    cases q with
    | nil => simp [nodeAt] at hq; exact hq ▸ NodeWF.file c
    | cons x q => simp [nodeAt] at hq
  | dir es hn hc ihc =>
    intro q m hq
    cases q with
    | nil =>
      simp [nodeAt] at hq
      exact hq ▸ NodeWF.dir es hn hc
    | cons x q =>
      simp only [nodeAt] at hq
      cases hl : lookupEntry es x with
      | none => rw [hl] at hq; simp at hq
      | some v =>
        rw [hl] at hq
        exact ihc x v (lookupEntry_mem es x v hl) q hq

theorem nodeWF_rootAt {s : Entries} (h : NodeWF (Node.dir s)) {q : List String} {m : Node}
    (hq : rootAt s q = some m) : NodeWF m :=
  nodeWF_nodeAt h q hq

/-! ### Divergence of segment lists -/

theorem diverge_of_not_prefix : ∀ (a b : List String),
    ¬ a <+: b → ¬ b <+: a → Diverge a b := by
  intro a
  induction a with
  | nil =>
    intro b hab _
    exact absurd List.nil_prefix hab
  | cons x a iha =>
    intro b hab hba
    cases b with
    | nil => exact absurd List.nil_prefix hba
    | cons y b =>
      by_cases hxy : x = y
      · subst hxy
        obtain ⟨i, ha, hb, hne⟩ := iha b
          (fun hp => hab (List.cons_prefix_cons.mpr ⟨rfl, hp⟩))
          (fun hp => hba (List.cons_prefix_cons.mpr ⟨rfl, hp⟩))
        exact ⟨i + 1, by simpa using ha, by simpa using hb, by simpa using hne⟩
      · exact ⟨0, by simp, by simp, by simp [hxy]⟩

theorem diverge_iff_not_prefix (a b : List String) :
    Diverge a b ↔ ¬ a <+: b ∧ ¬ b <+: a := by
  constructor
  · rintro ⟨i, ha, hb, hne⟩
    constructor
    · intro hp
      exact hne (by rw [List.getElem?_eq_getElem ha, List.getElem?_eq_getElem hb,
        hp.getElem ha])
    · intro hp
      exact hne (by rw [List.getElem?_eq_getElem ha, List.getElem?_eq_getElem hb,
        hp.getElem hb])
  · intro h
    exact diverge_of_not_prefix a b h.1 h.2

theorem Diverge.symm {a b : List String} (h : Diverge a b) : Diverge b a := by
  obtain ⟨i, ha, hb, hne⟩ := h
  exact ⟨i, hb, ha, fun h2 => hne h2.symm⟩

theorem Diverge.append_left {a b : List String} (h : Diverge a b) (x : List String) :
    Diverge (a ++ x) b := by
  obtain ⟨i, ha, hb, hne⟩ := h
  refine ⟨i, by simp; omega, hb, ?_⟩
  rwa [List.getElem?_append_left ha]

theorem Diverge.append_right {a b : List String} (h : Diverge a b) (x : List String) :
    Diverge a (b ++ x) :=
  (h.symm.append_left x).symm

theorem Diverge.append_both {a b : List String} (h : Diverge a b) (x y : List String) :
    Diverge (a ++ x) (b ++ y) :=
  (h.append_left x).append_right y

theorem diverge_nonempty_left {a b : List String} (h : Diverge a b) : a ≠ [] := by
  obtain ⟨i, ha, _, _⟩ := h
  intro hnil
  subst hnil
  simp at ha

theorem Diverge.of_cons {x y : String} {q a : List String}
    (h : Diverge (x :: q) (y :: a)) (hxy : x = y) : Diverge q a := by
  obtain ⟨i, hq, ha, hne⟩ := h
  cases i with
  | zero => exact absurd (by simp [hxy]) hne
  | succ j =>
    refine ⟨j, by simpa using hq, by simpa using ha, ?_⟩
    simpa using hne

/-! ### Functional description of the creating walks -/

theorem setPathE_cons_eq (s : Entries) (y : String) (a : List String) (m : Node) :
    ∃ X : Node, setPathE s (y :: a) m = setEntry s y X := by
  cases a with
  | nil => exact ⟨m, rfl⟩
  | cons z t =>
    cases hl : lookupEntry s y with
    | some n =>
      cases n with
      | dir sub => exact ⟨Node.dir (setPathE sub (z :: t) m), by simp [setPathE, hl]⟩
      | file c => exact ⟨Node.dir (setPathE [] (z :: t) m), by simp [setPathE, hl]⟩
    | none => exact ⟨Node.dir (setPathE [] (z :: t) m), by simp [setPathE, hl]⟩

theorem rootAt_setPathE_append : ∀ (a : List String), a ≠ [] →
    ∀ (s : Entries) (m : Node) (b : List String),
    rootAt (setPathE s a m) (a ++ b) = nodeAt m b := by
  intro a
  induction a with
  | nil => intro h; exact absurd rfl h
  | cons x a ih =>
    intro _ s m b
    cases a with
    | nil =>
      show rootAt (setEntry s x m) (x :: b) = nodeAt m b
      simp [rootAt, nodeAt, lookupEntry_setEntry_self]
    | cons y t =>
      have hstep : ∀ (sub : Entries),
          rootAt (setEntry s x (Node.dir (setPathE sub (y :: t) m))) (x :: ((y :: t) ++ b)) =
            nodeAt m b := by
        intro sub
        simp only [rootAt, nodeAt, lookupEntry_setEntry_self]
        exact ih (by simp) sub m b
      cases hl : lookupEntry s x with
      | some n =>
        cases n with
        | dir sub =>
          simpa [setPathE, hl] using hstep sub
        | file c =>
          simpa [setPathE, hl] using hstep []
      | none =>
        simpa [setPathE, hl] using hstep []

theorem rootAt_setPathE_self {a : List String} (h : a ≠ []) (s : Entries) (m : Node) :
    rootAt (setPathE s a m) a = some m := by
  simpa [nodeAt] using rootAt_setPathE_append a h s m []

theorem rootAt_setPathE_diverge : ∀ (q a : List String) (s : Entries) (m : Node),
    Diverge q a → rootAt (setPathE s a m) q = rootAt s q := by
  intro q
  induction q with
  | nil =>
    intro a s m h
    exact absurd rfl (diverge_nonempty_left h)
  | cons x q ih =>
    intro a s m h
    cases a with
    | nil => exact absurd rfl (diverge_nonempty_left h.symm)
    | cons y a =>
      by_cases hxy : x = y
      · subst hxy
        have hq : Diverge q a := h.of_cons rfl
        cases a with
        | nil => exact absurd rfl (diverge_nonempty_left hq.symm)
        | cons z t =>
          cases hl : lookupEntry s x with
          | some n =>
            cases n with
            | dir sub =>
              simp only [setPathE, hl, rootAt, nodeAt, lookupEntry_setEntry_self]
              have hih := ih (z :: t) sub m hq
              simp only [rootAt] at hih
              exact hih
            | file c =>
              have hih := ih (z :: t) [] m hq
              simp only [rootAt] at hih
              simp only [setPathE, hl, rootAt, nodeAt, lookupEntry_setEntry_self, hih]
              cases q with
              | nil => exact absurd rfl (diverge_nonempty_left hq)
              | cons w q2 => simp [nodeAt, lookupEntry]
          | none =>
            have hih := ih (z :: t) [] m hq
            simp only [rootAt] at hih
            simp only [setPathE, hl, rootAt, nodeAt, lookupEntry_setEntry_self, hih]
            cases q with
            | nil => exact absurd rfl (diverge_nonempty_left hq)
            | cons w q2 => simp [nodeAt, lookupEntry]
      · obtain ⟨X, hX⟩ := setPathE_cons_eq s y a m
        rw [hX]
        simp only [rootAt, nodeAt,
          lookupEntry_setEntry_of_ne s y x X (fun hh => hxy hh.symm)]

theorem setPathE_append_singleton : ∀ (a : List String), a ≠ [] →
    ∀ (s es : Entries) (n : String) (m : Node),
    setPathE (setPathE s a (Node.dir es)) (a ++ [n]) m =
      setPathE s a (Node.dir (setEntry es n m)) := by
  intro a
  induction a with
  | nil => intro h; exact absurd rfl h
  | cons x a ih =>
    intro _ s es n m
    cases a with
    | nil =>
      show setPathE (setEntry s x (Node.dir es)) (x :: [n]) m = setEntry s x (Node.dir (setEntry es n m))
      simp [setPathE, lookupEntry_setEntry_self, setEntry_setEntry]
    | cons y t =>
      have hstep : ∀ (sub : Entries),
          setPathE (setEntry s x (Node.dir (setPathE sub (y :: t) (Node.dir es))))
              (x :: ((y :: t) ++ [n])) m =
            setEntry s x (Node.dir (setPathE sub (y :: t) (Node.dir (setEntry es n m)))) := by
        intro sub
        have h1 : (y :: t) ++ [n] = y :: (t ++ [n]) := by simp
        simp only [setPathE, lookupEntry_setEntry_self, setEntry_setEntry]
        rw [← ih (by simp) sub es n m]
        rfl
      cases hl : lookupEntry s x with
      | some nd =>
        cases nd with
        | dir sub =>
          simpa [setPathE, hl] using hstep sub
        | file c =>
          simpa [setPathE, hl] using hstep []
      | none =>
        simpa [setPathE, hl] using hstep []

theorem nodeWF_setPathE : ∀ (a : List String) (s : Entries) (m : Node),
    NodeWF (Node.dir s) → NodeWF m → NodeWF (Node.dir (setPathE s a m)) := by
  intro a
  induction a with
  | nil => intro s m hs _; exact hs
  | cons x a ih =>
    intro s m hs hm
    cases a with
    | nil => exact nodeWF_setEntry hs hm x
    | cons y t =>
      cases hl : lookupEntry s x with
      | some n =>
        cases n with
        | dir sub =>
          have hsub : NodeWF (Node.dir sub) := hs.lookup hl
          simp only [setPathE, hl]
          exact nodeWF_setEntry hs (ih sub m hsub hm) x
        | file c =>
          simp only [setPathE, hl]
          exact nodeWF_setEntry hs (ih [] m nodeWF_nil hm) x
      | none =>
        simp only [setPathE, hl]
        exact nodeWF_setEntry hs (ih [] m nodeWF_nil hm) x

/-! ### Characterizations of the resolution walks -/

theorem nodeAtSegs_ok_iff : ∀ (q : List String) (s : Entries) (n : Node),
    nodeAtSegs q s = .ok n ↔ rootAt s q = some n := by
  intro q
  induction q with
  | nil =>
    intro s n
    simp only [nodeAtSegs, rootAt, nodeAt]
    constructor
    · intro h; cases h; rfl
    · intro h; cases h; rfl
  | cons x rest ih =>
    intro s n
    cases hl : lookupEntry s x with
    | none =>
      simp [nodeAtSegs, hl, rootAt, nodeAt]
    | some n0 =>
      cases rest with
      | nil =>
        simp only [nodeAtSegs, hl, rootAt, nodeAt]
        constructor
        · intro h; cases h; rfl
        · intro h; cases h; rfl
      | cons y t =>
        cases n0 with
        | dir sub =>
          simp only [nodeAtSegs, hl, rootAt, nodeAt]
          exact ih sub n
        | file c =>
          simp [nodeAtSegs, hl, rootAt, nodeAt, typeMismatchError]

theorem dirAtSegs_ok_iff : ∀ (q : List String) (s es : Entries),
    dirAtSegs q s = .ok es ↔ rootAt s q = some (Node.dir es) := by
  intro q
  induction q with
  | nil =>
    intro s es
    simp only [dirAtSegs, rootAt, nodeAt]
    constructor
    · intro h; cases h; rfl
    · intro h; cases h; rfl
  | cons x rest ih =>
    intro s es
    cases hl : lookupEntry s x with
    | none => simp [dirAtSegs, hl, rootAt, nodeAt]
    | some n0 =>
      cases n0 with
      | dir sub =>
        simp only [dirAtSegs, hl, rootAt, nodeAt]
        exact ih sub es
      | file c =>
        cases rest with
        | nil => simp [dirAtSegs, hl, rootAt, nodeAt]
        | cons y t => simp [dirAtSegs, hl, rootAt, nodeAt]

theorem readFileSegs_ok_iff : ∀ (q : List String) (s : Entries) (c : List Nat),
    readFileSegs q s = .ok c ↔ q ≠ [] ∧ rootAt s q = some (Node.file c) := by
  intro q
  induction q with
  | nil =>
    intro s c
    simp [readFileSegs]
  | cons x rest ih =>
    intro s c
    cases rest with
    | nil =>
      cases hl : lookupEntry s x with
      | none => simp [readFileSegs, hl, rootAt, nodeAt]
      | some n0 =>
        cases n0 with
        | dir sub => simp [readFileSegs, hl, rootAt, nodeAt]
        | file c0 =>
          simp only [readFileSegs, hl, rootAt, nodeAt, ne_eq, reduceCtorEq,
            not_false_eq_true, true_and]
          constructor
          · intro h; cases h; rfl
          · intro h; cases h; rfl
    | cons y t =>
      cases hl : lookupEntry s x with
      | none => simp [readFileSegs, hl, rootAt, nodeAt]
      | some n0 =>
        cases n0 with
        | dir sub =>
          simp only [readFileSegs, hl, rootAt, nodeAt, ne_eq, reduceCtorEq,
            not_false_eq_true, true_and]
          rw [ih sub c]
          simp [rootAt, nodeAt]
        | file c0 => simp [readFileSegs, hl, rootAt, nodeAt]

theorem writeFileSegs_eq (c : List Nat) : ∀ (q : List String) (s s2 : Entries),
    writeFileSegs c q s = .ok s2 → s2 = setPathE s q (Node.file c) := by
  intro q
  induction q with
  | nil =>
    intro s s2 h
    simp [writeFileSegs] at h
  | cons x rest ih =>
    intro s s2 h
    cases rest with
    | nil =>
      cases hl : lookupEntry s x with
      | none =>
        simp only [writeFileSegs, hl] at h
        cases h
        rfl
      | some n0 =>
        cases n0 with
        | dir sub => simp [writeFileSegs, hl] at h
        | file c0 =>
          simp only [writeFileSegs, hl] at h
          cases h
          rfl
    | cons y t =>
      cases hl : lookupEntry s x with
      | none =>
        simp only [writeFileSegs, hl] at h
        cases hrec : writeFileSegs c (y :: t) [] with
        | error e => rw [hrec] at h; cases h
        | ok sub2 =>
          rw [hrec] at h
          cases h
          rw [ih [] sub2 hrec]
          simp [setPathE, hl]
      | some n0 =>
        cases n0 with
        | file c0 => simp [writeFileSegs, hl] at h
        | dir sub =>
          simp only [writeFileSegs, hl] at h
          cases hrec : writeFileSegs c (y :: t) sub with
          | error e => rw [hrec] at h; cases h
          | ok sub2 =>
            rw [hrec] at h
            cases h
            rw [ih sub sub2 hrec]
            simp [setPathE, hl]

theorem mkdirSegs_eq_of_absent : ∀ (q : List String) (s s2 : Entries),
    mkdirSegs q s = .ok s2 → rootAt s q = none → s2 = setPathE s q (Node.dir []) := by
  intro q
  induction q with
  | nil =>
    intro s s2 h habs
    simp [rootAt, nodeAt] at habs
  | cons x rest ih =>
    intro s s2 h habs
    cases hl : lookupEntry s x with
    | none =>
      simp only [mkdirSegs, hl] at h
      cases hrec : mkdirSegs rest [] with
      | error e => rw [hrec] at h; cases h
      | ok sub2 =>
        rw [hrec] at h
        cases h
        cases rest with
        | nil =>
          simp only [mkdirSegs] at hrec
          cases hrec
          rfl
        | cons y t =>
          have habs2 : rootAt ([] : Entries) (y :: t) = none := by
            simp [rootAt, nodeAt, lookupEntry]
          rw [ih [] sub2 hrec habs2]
          simp [setPathE, hl]
    | some n0 =>
      cases n0 with
      | file c0 => simp [mkdirSegs, hl] at h
      | dir sub =>
        simp only [mkdirSegs, hl] at h
        cases hrec : mkdirSegs rest sub with
        | error e => rw [hrec] at h; cases h
        | ok sub2 =>
          rw [hrec] at h
          cases h
          cases rest with
          | nil =>
            rw [rootAt, nodeAt, hl] at habs
            simp [nodeAt] at habs
          | cons y t =>
            have habs2 : rootAt sub (y :: t) = none := by
              rw [rootAt, nodeAt, hl] at habs
              exact habs
            rw [ih sub sub2 hrec habs2]
            simp [setPathE, hl]

theorem ne_nil_of_rootAt_none {s : Entries} {q : List String}
    (h : rootAt s q = none) : q ≠ [] := by
  intro hq
  subst hq
  simp [rootAt, nodeAt] at h

theorem readFileSegs_writeFileSegs (c : List Nat) (q : List String) (s s2 : Entries)
    (h : writeFileSegs c q s = .ok s2) : readFileSegs q s2 = .ok c := by
  have hq : q ≠ [] := by
    intro hnil
    subst hnil
    simp [writeFileSegs] at h
  rw [readFileSegs_ok_iff]
  refine ⟨hq, ?_⟩
  rw [writeFileSegs_eq c q s s2 h]
  exact rootAt_setPathE_self hq s (Node.file c)

/-! ### Lemmas about removal -/

theorem mem_keys_removeEntryList (es : Entries) (k k2 : String)
    (h : k2 ∈ (removeEntryList es k).map Prod.fst) : k2 ∈ es.map Prod.fst := by
  induction es with
  | nil => simpa [removeEntryList] using h
  | cons p rest ih =>
    obtain ⟨k0, v0⟩ := p
    by_cases h0 : k0 = k
    · simp only [removeEntryList, if_pos h0] at h
      simp [h]
    · simp only [removeEntryList, if_neg h0, List.map_cons, List.mem_cons] at h
      rcases h with h | h
      · simp [h]
      · simp [ih h]

theorem mem_removeEntryList (es : Entries) (k k2 : String) (v2 : Node)
    (h : (k2, v2) ∈ removeEntryList es k) : (k2, v2) ∈ es := by
  induction es with
  | nil => simpa [removeEntryList] using h
  | cons p rest ih =>
    obtain ⟨k0, v0⟩ := p
    by_cases h0 : k0 = k
    · simp only [removeEntryList, if_pos h0] at h
      exact List.mem_cons_of_mem _ h
    · simp only [removeEntryList, if_neg h0, List.mem_cons] at h
      rcases h with h | h
      · simp [h]
      · exact List.mem_cons_of_mem _ (ih h)

theorem nodeWF_removeEntryList {es : Entries} (h : NodeWF (Node.dir es)) (k : String) :
    NodeWF (Node.dir (removeEntryList es k)) := by
  refine NodeWF.dir _ ?_ ?_
  · have hn := h.nodup
    clear h
    induction es with
    | nil => simpa [removeEntryList] using hn
    | cons p rest ih =>
      obtain ⟨k0, v0⟩ := p
      simp only [List.map_cons, List.nodup_cons] at hn
      by_cases h0 : k0 = k
      · simpa [removeEntryList, h0] using hn.2
      · simp only [removeEntryList, if_neg h0, List.map_cons, List.nodup_cons]
        exact ⟨fun hm => hn.1 (mem_keys_removeEntryList rest k k0 hm), ih hn.2⟩
  · intro k2 v2 hm
    exact h.child (mem_removeEntryList es k k2 v2 hm)

theorem nodeWF_append_left {a b : Entries} (h : NodeWF (Node.dir (a ++ b))) :
    NodeWF (Node.dir a) := by
  refine NodeWF.dir _ ?_ ?_
  · have hn := h.nodup
    rw [List.map_append] at hn
    exact hn.sublist (List.sublist_append_left _ _)
  · intro k v hm
    exact h.child (List.mem_append_left b hm)

theorem lookup_none_of_nodup_append {acc rest : Entries} {n : String} {v : Node}
    (h : ((acc ++ (n, v) :: rest).map Prod.fst).Nodup) : lookupEntry acc n = none := by
  rw [lookupEntry_eq_none_iff]
  intro hmem
  rw [List.map_append, List.nodup_append] at h
  exact h.2.2 hmem (by simp)

/-! ### Behaviour of delete -/

theorem delSegs_spec (name : String) (recursive : Bool) :
    ∀ (q : List String) (s s2 : Entries), NodeWF (Node.dir s) →
    delSegs name recursive q s = .ok s2 →
    (∃ es es2, rootAt s q = some (Node.dir es) ∧ rootAt s2 q = some (Node.dir es2) ∧
      es2 = removeEntryList es name ∧ lookupEntry es2 name = none) ∧
    (∀ p, Diverge p (q ++ [name]) → rootAt s2 p = rootAt s p) ∧
    NodeWF (Node.dir s2) := by
  intro q
  induction q with
  | nil =>
    intro s s2 hwf h
    have hrm : s2 = removeEntryList s name := by
      simp only [delSegs, removeEntryOp] at h
      by_cases hn : name = ""
      · simp [hn] at h
      · rw [if_neg hn] at h
        cases hl : lookupEntry s name with
        | none => rw [hl] at h; cases h
        | some n0 =>
          rw [hl] at h
          cases n0 with
          | file c => cases h; rfl
          | dir sub =>
            by_cases hr : recursive
            · simp [hr] at h; exact h.symm
            · simp [hr] at h
              by_cases he : sub.isEmpty
              · simp [he] at h; exact h.symm
              · simp [he] at h
    subst hrm
    refine ⟨⟨s, removeEntryList s name, rfl, rfl, rfl,
      lookupEntry_removeEntryList_self s name hwf.nodup⟩, ?_, nodeWF_removeEntryList hwf name⟩
    intro p hp
    cases p with
    | nil => exact absurd rfl (diverge_nonempty_left hp)
    | cons w p2 =>
      have hw : w ≠ name := by
        obtain ⟨i, hiq, hia, hne⟩ := hp
        simp at hia
        subst hia
        simpa using hne
      simp only [rootAt, nodeAt, lookupEntry_removeEntryList_of_ne s name w
        (fun hh => hw hh.symm)]
  | cons x rest ih =>
    intro s s2 hwf h
    simp only [delSegs] at h
    cases hl : lookupEntry s x with
    | none => rw [hl] at h; cases h
    | some n0 =>
      cases n0 with
      | file c =>
        simp only [hl] at h
        cases h
      | dir sub =>
        simp only [hl] at h
        cases hrec : delSegs name recursive rest sub with
        | error e => rw [hrec] at h; cases h
        | ok sub2 =>
          rw [hrec] at h
          cases h
          have hsubwf : NodeWF (Node.dir sub) := hwf.lookup hl
          obtain ⟨⟨es, es2, he1, he2, he3, he4⟩, hframe, hwf2⟩ :=
            ih sub sub2 hsubwf hrec
          refine ⟨⟨es, es2, ?_, ?_, he3, he4⟩, ?_, nodeWF_setEntry hwf hwf2 x⟩
          · simpa only [rootAt, nodeAt, hl] using he1
          · simpa only [rootAt, nodeAt, lookupEntry_setEntry_self] using he2
          · intro p hp
            cases p with
            | nil => exact absurd rfl (diverge_nonempty_left hp)
            | cons w p2 =>
              by_cases hw : w = x
              · subst hw
                have hp2 : Diverge p2 (rest ++ [name]) := hp.of_cons rfl
                have := hframe p2 hp2
                simp only [rootAt] at this
                simp only [rootAt, nodeAt, lookupEntry_setEntry_self, hl, this]
              · simp only [rootAt, nodeAt,
                  lookupEntry_setEntry_of_ne s x w _ (fun hh => hw hh.symm)]

theorem nodeAtSegs_cons_dir {s : Entries} {x : String} {sub : Entries}
    (hl : lookupEntry s x = some (Node.dir sub)) (y : String) (t : List String) :
    nodeAtSegs (x :: y :: t) s = nodeAtSegs (y :: t) sub := by
  simp [nodeAtSegs, hl]

theorem nodeAtSegs_append_missing : ∀ (q : List String) (s : Entries) (es : Entries)
    (name : String), rootAt s q = some (Node.dir es) → lookupEntry es name = none →
    nodeAtSegs (q ++ [name]) s = .error notFoundError := by
  intro q
  induction q with
  | nil =>
    intro s es name h1 h2
    simp only [rootAt, nodeAt, Option.some_inj] at h1
    cases h1
    simp [nodeAtSegs, h2]
  | cons x rest ih =>
    intro s es name h1 h2
    simp only [rootAt, nodeAt] at h1
    cases hl : lookupEntry s x with
    | none => rw [hl] at h1; cases h1
    | some m =>
      rw [hl] at h1
      cases m with
      | file c =>
        cases rest with
        | nil => simp [nodeAt] at h1
        | cons y t => simp [nodeAt] at h1
      | dir sub =>
        have hih := ih sub es name h1 h2
        cases rest with
        | nil =>
          rw [List.cons_append, List.nil_append, nodeAtSegs_cons_dir hl name []]
          simpa using hih
        | cons r t =>
          rw [List.cons_append, List.cons_append, nodeAtSegs_cons_dir hl r (t ++ [name])]
          simpa using hih

/-! ### Behaviour of mkdir -/

theorem mkdirSegs_idem : ∀ (q : List String) (s s2 : Entries),
    mkdirSegs q s = .ok s2 → mkdirSegs q s2 = .ok s2 := by
  intro q
  induction q with
  | nil =>
    intro s s2 h
    simp only [mkdirSegs] at h
    cases h
    rfl
  | cons x rest ih =>
    intro s s2 h
    simp only [mkdirSegs] at h
    cases hl : lookupEntry s x with
    | none =>
      simp only [hl] at h
      cases hrec : mkdirSegs rest [] with
      | error e => rw [hrec] at h; cases h
      | ok sub2 =>
        rw [hrec] at h
        cases h
        simp only [mkdirSegs, lookupEntry_setEntry_self, ih [] sub2 hrec,
          setEntry_setEntry]
    | some n0 =>
      cases n0 with
      | file c =>
        simp only [hl] at h
        cases h
      | dir sub =>
        simp only [hl] at h
        cases hrec : mkdirSegs rest sub with
        | error e => rw [hrec] at h; cases h
        | ok sub2 =>
          rw [hrec] at h
          cases h
          simp only [mkdirSegs, lookupEntry_setEntry_self, ih sub sub2 hrec,
            setEntry_setEntry]

theorem mkdirSegs_makes_dir : ∀ (q : List String) (s s2 : Entries),
    mkdirSegs q s = .ok s2 → ∃ es, rootAt s2 q = some (Node.dir es) := by
  intro q
  induction q with
  | nil =>
    intro s s2 h
    simp only [mkdirSegs] at h
    cases h
    exact ⟨s, rfl⟩
  | cons x rest ih =>
    intro s s2 h
    simp only [mkdirSegs] at h
    cases hl : lookupEntry s x with
    | none =>
      simp only [hl] at h
      cases hrec : mkdirSegs rest [] with
      | error e => rw [hrec] at h; cases h
      | ok sub2 =>
        rw [hrec] at h
        cases h
        obtain ⟨es, hes⟩ := ih [] sub2 hrec
        refine ⟨es, ?_⟩
        simp only [rootAt, nodeAt, lookupEntry_setEntry_self]
        simpa only [rootAt] using hes
    | some n0 =>
      cases n0 with
      | file c =>
        simp only [hl] at h
        cases h
      | dir sub =>
        simp only [hl] at h
        cases hrec : mkdirSegs rest sub with
        | error e => rw [hrec] at h; cases h
        | ok sub2 =>
          rw [hrec] at h
          cases h
          obtain ⟨es, hes⟩ := ih sub sub2 hrec
          refine ⟨es, ?_⟩
          simp only [rootAt, nodeAt, lookupEntry_setEntry_self]
          simpa only [rootAt] using hes

theorem mkdirSegs_error_of_file_at : ∀ (q : List String) (s : Entries),
    (∃ pre n rest2 c, q = pre ++ n :: rest2 ∧ rootAt s (pre ++ [n]) = some (Node.file c)) →
    mkdirSegs q s = .error typeMismatchError := by
  intro q
  induction q with
  | nil =>
    rintro s ⟨pre, n, rest2, c, hq, _⟩
    exact absurd hq (by simp)
  | cons x rest ih =>
    rintro s ⟨pre, n, rest2, c, hq, hfile⟩
    cases pre with
    | nil =>
      simp only [List.nil_append] at hq hfile
      cases hq
      rw [rootAt, nodeAt] at hfile
      cases hll : lookupEntry s x with
      | none =>
        simp only [hll] at hfile
        cases hfile
      | some m =>
        simp only [hll, nodeAt, Option.some_inj] at hfile
        subst hfile
        simp [mkdirSegs, hll]
    | cons p0 pre2 =>
      simp only [List.cons_append] at hq
      injection hq with hx hq2
      subst hx
      rw [rootAt, List.cons_append, nodeAt] at hfile
      cases hl : lookupEntry s x with
      | none =>
        simp only [hl] at hfile
        cases hfile
      | some m =>
        simp only [hl] at hfile
        cases m with
        | file c0 =>
          exfalso
          cases pre2 with
          | nil => simp [nodeAt] at hfile
          | cons z t => simp [nodeAt] at hfile
        | dir sub =>
          have hsub : rootAt sub (pre2 ++ [n]) = some (Node.file c) := hfile
          have := ih sub ⟨pre2, n, rest2, c, hq2, hsub⟩
          simp [mkdirSegs, hl, this]

/-! ### Behaviour of the recursive copy -/

theorem copyGo_ow_irrel : ∀ (fuel : Nat) (ow ow2 : Bool) (j : CopyJob) (s : Entries),
    copyGo ow fuel j s = copyGo ow2 fuel j s := by
  intro fuel
  induction fuel with
  | zero => intro ow ow2 j s; rfl
  | succ fuel ih =>
    intro ow ow2 j s
    cases j with
    | entry fs ts =>
      simp only [copyGo]
      cases nodeAtSegs fs s with
      | error e => rfl
      | ok n =>
        cases n with
        | file c => rfl
        | dir es =>
          show (match mkdirSegs ts s with
            | .error e => (.error e : Except JsErr Entries)
            | .ok s1 =>
              match dirAtSegs fs s1 with
              | .error e => .error e
              | .ok es2 => copyGo ow fuel (.children fs ts (es2.map Prod.fst)) s1) =
            (match mkdirSegs ts s with
            | .error e => (.error e : Except JsErr Entries)
            | .ok s1 =>
              match dirAtSegs fs s1 with
              | .error e => .error e
              | .ok es2 => copyGo ow2 fuel (.children fs ts (es2.map Prod.fst)) s1)
          cases mkdirSegs ts s with
          | error e => rfl
          | ok s1 =>
            show (match dirAtSegs fs s1 with
              | .error e => (.error e : Except JsErr Entries)
              | .ok es2 => copyGo ow fuel (.children fs ts (es2.map Prod.fst)) s1) =
              (match dirAtSegs fs s1 with
              | .error e => (.error e : Except JsErr Entries)
              | .ok es2 => copyGo ow2 fuel (.children fs ts (es2.map Prod.fst)) s1)
            cases dirAtSegs fs s1 with
            | error e => rfl
            | ok es2 => exact ih ow ow2 _ _
    | children fs ts names =>
      cases names with
      | nil => rfl
      | cons n rest =>
        simp only [copyGo]
        rw [ih ow ow2 (.entry (fs ++ [n]) (ts ++ [n])) s]
        cases copyGo ow2 fuel (.entry (fs ++ [n]) (ts ++ [n])) s with
        | error e => rfl
        | ok s3 => exact ih ow ow2 _ _

theorem copyGo_entry_src (ow : Bool) (fuel : Nat) (fs ts : List String) (s s2 : Entries)
    (h : copyGo ow fuel (.entry fs ts) s = .ok s2) : ∃ src, rootAt s fs = some src := by
  cases fuel with
  | zero => cases h
  | succ fuel =>
    simp only [copyGo] at h
    cases hns : nodeAtSegs fs s with
    | error e =>
      simp only [hns] at h
      cases h
    | ok src => exact ⟨src, (nodeAtSegs_ok_iff fs s src).mp hns⟩

theorem copyGo_correct : ∀ (fuel : Nat) (ow : Bool),
    (∀ (fs ts : List String) (s s2 : Entries) (src : Node),
      NodeWF (Node.dir s) → Diverge fs ts → rootAt s ts = none →
      rootAt s fs = some src → copyGo ow fuel (.entry fs ts) s = .ok s2 →
      s2 = setPathE s ts src) ∧
    (∀ (fs ts : List String) (es0 acc rem : Entries) (s s2 : Entries),
      NodeWF (Node.dir s) → NodeWF (Node.dir es0) → Diverge fs ts → ts ≠ [] →
      rootAt s fs = some (Node.dir es0) → es0 = acc ++ rem →
      copyGo ow fuel (.children fs ts (rem.map Prod.fst)) (setPathE s ts (Node.dir acc)) =
        .ok s2 →
      s2 = setPathE s ts (Node.dir es0)) := by
  intro fuel
  induction fuel with
  | zero =>
    intro ow
    constructor
    · intro fs ts s s2 src _ _ _ _ h
      cases h
    · intro fs ts es0 acc rem s s2 _ _ _ _ _ _ h
      cases h
  | succ fuel ih =>
    intro ow
    obtain ⟨ihe, ihc⟩ := ih ow
    constructor
    · intro fs ts s s2 src hwf hdiv habs hsrc h
      have hns : nodeAtSegs fs s = .ok src := (nodeAtSegs_ok_iff fs s src).mpr hsrc
      simp only [copyGo, hns] at h
      cases src with
      | file c => exact writeFileSegs_eq c ts s s2 h
      | dir es0 =>
        have h2 : (match mkdirSegs ts s with
            | .error e => (.error e : Except JsErr Entries)
            | .ok s1 =>
              match dirAtSegs fs s1 with
              | .error e => .error e
              | .ok es => copyGo ow fuel (.children fs ts (es.map Prod.fst)) s1) =
            Except.ok s2 := h
        cases hmk : mkdirSegs ts s with
        | error e =>
          simp only [hmk] at h2
          cases h2
        | ok s1 =>
          simp only [hmk] at h2
          have hs1 : s1 = setPathE s ts (Node.dir []) :=
            mkdirSegs_eq_of_absent ts s s1 hmk habs
          have hfs1 : rootAt s1 fs = some (Node.dir es0) := by
            rw [hs1, rootAt_setPathE_diverge fs ts s (Node.dir []) hdiv]
            exact hsrc
          have hda : dirAtSegs fs s1 = .ok es0 := (dirAtSegs_ok_iff fs s1 es0).mpr hfs1
          simp only [hda] at h2
          rw [hs1] at h2
          exact ihc fs ts es0 [] es0 s s2 hwf (nodeWF_rootAt hwf hsrc) hdiv
            (ne_nil_of_rootAt_none habs) hsrc (by simp) h2
    · intro fs ts es0 acc rem s s2 hwf hwf0 hdiv hts hsrc hsplit h
      cases rem with
      | nil =>
        simp only [List.map_nil, copyGo] at h
        cases h
        rw [hsplit, List.append_nil]
      | cons p rest =>
        obtain ⟨n, child⟩ := p
        simp only [List.map_cons, copyGo] at h
        have hacc_none : lookupEntry acc n = none :=
          lookup_none_of_nodup_append (hsplit ▸ hwf0.nodup)
        cases hcp : copyGo ow fuel (.entry (fs ++ [n]) (ts ++ [n]))
            (setPathE s ts (Node.dir acc)) with
        | error e =>
          simp only [hcp] at h
          cases h
        | ok smid =>
          simp only [hcp] at h
          have hwfacc : NodeWF (Node.dir acc) := nodeWF_append_left (hsplit ▸ hwf0)
          have hwfk : NodeWF (Node.dir (setPathE s ts (Node.dir acc))) :=
            nodeWF_setPathE ts s _ hwf hwfacc
          have hdiv2 : Diverge (fs ++ [n]) (ts ++ [n]) := hdiv.append_both [n] [n]
          have habs2 : rootAt (setPathE s ts (Node.dir acc)) (ts ++ [n]) = none := by
            rw [rootAt_setPathE_append ts hts s (Node.dir acc) [n]]
            simp [nodeAt, hacc_none]
          have hsrc2 : rootAt (setPathE s ts (Node.dir acc)) (fs ++ [n]) = some child := by
            rw [rootAt_setPathE_diverge (fs ++ [n]) ts s (Node.dir acc) (hdiv.append_left [n]),
              rootAt_append, hsrc, hsplit]
            simp [nodeAt, lookupEntry_append_of_none acc ((n, child) :: rest) n hacc_none,
              lookupEntry]
          have hmid := ihe (fs ++ [n]) (ts ++ [n]) _ smid child hwfk hdiv2 habs2 hsrc2 hcp
          rw [setPathE_append_singleton ts hts s acc n child,
            setEntry_eq_append acc n child hacc_none] at hmid
          subst hmid
          exact ihc fs ts es0 (acc ++ [(n, child)]) rest s s2 hwf hwf0 hdiv hts hsrc
            (by rw [hsplit]; simp) h

/-! ### Behaviour of list -/

theorem list_one (s : Entries) (incF incD : Bool) (path : String) :
    list s incF incD 1 path = listCore s incF incD none path := rfl

theorem list_zero (s : Entries) (incF incD : Bool) (path : String) :
    list s incF incD 0 path = listCore s incF incD none path := rfl

theorem list_succ_succ (s : Entries) (incF incD : Bool) (k : Nat) (path : String) :
    list s incF incD (k + 2) path =
      listCore s incF incD (some (fun p => list s incF incD (k + 1) p)) path := rfl

theorem listEntries_none_children (incF incD : Bool) (path : String) :
    ∀ (es : List (String × Node)) (l : List FSEntry),
    listEntries incF incD none path es = .ok l → ∀ e ∈ l, e.children = none := by
  intro es
  induction es with
  | nil =>
    intro l h e he
    simp only [listEntries] at h
    cases h
    simp at he
  | cons p rest ih =>
    intro l h e he
    obtain ⟨name, node⟩ := p
    cases node with
    | file c =>
      cases incF with
      | false =>
        simp only [listEntries, Bool.false_eq_true, if_neg] at h
        exact ih l (by simpa using h) e he
      | true =>
        simp only [listEntries, if_pos rfl] at h
        cases hrec : listEntries true incD none path rest with
        | error e2 => rw [hrec] at h; cases h
        | ok tl =>
          rw [hrec] at h
          cases h
          rcases List.mem_cons.mp he with he2 | he2
          · subst he2; rfl
          · exact ih tl hrec e he2
    | dir sub =>
      cases incD with
      | false =>
        simp only [listEntries, Bool.false_eq_true, if_neg] at h
        exact ih l (by simpa using h) e he
      | true =>
        simp only [listEntries, if_pos rfl] at h
        cases hrec : listEntries incF true none path rest with
        | error e2 => rw [hrec] at h; cases h
        | ok tl =>
          rw [hrec] at h
          cases h
          rcases List.mem_cons.mp he with he2 | he2
          · subst he2; rfl
          · exact ih tl hrec e he2

theorem listEntries_some_children (incF incD : Bool) (path : String)
    (r : String → Except JsErr (List FSEntry)) :
    ∀ (es : List (String × Node)) (l : List FSEntry),
    listEntries incF incD (some r) path es = .ok l → ∀ e ∈ l,
      (e.kind = .directory → ∃ ch, e.children = some ch ∧ r e.path = .ok ch) ∧
      (e.kind = .file → e.children = none) := by
  intro es
  induction es with
  | nil =>
    intro l h e he
    simp only [listEntries] at h
    cases h
    simp at he
  | cons p rest ih =>
    intro l h e he
    obtain ⟨name, node⟩ := p
    cases node with
    | file c =>
      cases incF with
      | false =>
        simp only [listEntries, Bool.false_eq_true, if_neg] at h
        exact ih l (by simpa using h) e he
      | true =>
        simp only [listEntries, if_pos rfl] at h
        cases hrec : listEntries true incD (some r) path rest with
        | error e2 => rw [hrec] at h; cases h
        | ok tl =>
          rw [hrec] at h
          cases h
          rcases List.mem_cons.mp he with he2 | he2
          · subst he2
            refine ⟨fun hk => ?_, fun _ => rfl⟩
            cases hk
          · exact ih tl hrec e he2
    | dir sub =>
      cases incD with
      | false =>
        simp only [listEntries, Bool.false_eq_true, if_neg] at h
        exact ih l (by simpa using h) e he
      | true =>
        simp only [listEntries, if_pos rfl] at h
        cases hch : r (if path = "/" then "/" ++ name else path ++ "/" ++ name) with
        | error e2 => rw [hch] at h; cases h
        | ok ch =>
          rw [hch] at h
          cases hrec : listEntries incF true (some r) path rest with
          | error e2 => rw [hrec] at h; cases h
          | ok tl =>
            rw [hrec] at h
            cases h
            rcases List.mem_cons.mp he with he2 | he2
            · subst he2
              refine ⟨fun _ => ⟨ch, rfl, ?_⟩, fun hk => ?_⟩
              · exact hch
              · cases hk
            · exact ih tl hrec e he2

/-! ### Behaviour of the command dispatcher -/

theorem runCommand_none_of_unknown (env : Env) (fuel : Nat) (cmd : String) (p : Params)
    (s : Entries) (h : cmd ∉ commandNames) : runCommand env fuel cmd p s = none := by
  simp only [commandNames, List.mem_cons, List.mem_singleton, not_or] at h
  obtain ⟨h1, h2, h3, h4, h5, h6, h7, h8, h9, h10, h11, h12, h13⟩ := h
  simp [runCommand, h1, h2, h3, h4, h5, h6, h7, h8, h9, h10, h11, h12, h13]

theorem dropLast_basename (path : String) (h : pathParts path ≠ []) :
    (pathParts path).dropLast ++ [getBasename path] = pathParts path := by
  have hg : getBasename path = (pathParts path).getLast h := by
    rw [getBasename, List.getLast?_eq_getLast _ h]
  rw [hg]
  exact List.dropLast_append_getLast h

/-! ## The claims -/

/-- C3 (amended): for every file and every cap that is either an
explicit positive maxBytes or the 2 MiB default (the code treats an
explicit 0 like an absent maxBytes, falling back to the default — see
the counterexample), fs.readText returns text and truncated where
truncated is true iff the file size strictly exceeds the cap, the text
is exactly the first cap bytes when truncated, and the full content
otherwise. -/
theorem c3_readText_truncation (path : String) (maxBytes : Option Nat) (s : Entries)
    (c : List Nat)
    (hpos : maxBytes = none ∨ ∃ m, maxBytes = some m ∧ 0 < m)
    (hread : readFileSegs (pathParts path) s = .ok c) :
    ∃ r, readText path maxBytes s = .ok r ∧
      (r.truncated = true ↔ maxBytes.getD TEXT_CAP < c.length) ∧
      (r.truncated = true → r.text = c.take (maxBytes.getD TEXT_CAP)) ∧
      (r.truncated = false → r.text = c) := by
  have hcap : effCap TEXT_CAP maxBytes = maxBytes.getD TEXT_CAP := by
    rcases hpos with h | ⟨m, hm, hmpos⟩
    · subst h; rfl
    · subst hm
      cases m with
      | zero => exact absurd hmpos (by simp)
      | succ m2 => rfl
  refine ⟨⟨if maxBytes.getD TEXT_CAP < c.length then c.take (maxBytes.getD TEXT_CAP) else c,
    decide (maxBytes.getD TEXT_CAP < c.length)⟩, ?_, ?_, ?_, ?_⟩
  · simp only [readText, hread, hcap]
  · simp
  · intro ht
    simp only [decide_eq_true_eq] at ht
    simp [if_pos ht]
  · intro ht
    simp only [decide_eq_false_iff_not] at ht
    simp [if_neg ht]

/-- C4: every exception thrown by a command handler is caught by the
executor and converted into a tagged error response on the fixed
name-to-code mapping — NotFoundError to NOT_FOUND, NotAllowedError to
NOT_ALLOWED, TypeMismatchError to TYPE_MISMATCH,
InvalidModificationError to INVALID_MODIFICATION,
NoModificationAllowedError to LOCKED, anything else to UNKNOWN_ERROR —
with the original message (when non-empty; an empty message falls back
to String(e)) and the stack preserved in the message and details
fields. -/
theorem c4_error_mapping (env : Env) (fuel : Nat) (cmd : String) (p : Params) (s : Entries)
    (e : JsErr)
    (h : runCommand env fuel cmd p s = some (.error e)) :
    OPFS_HANDLER env fuel cmd p s =
      (.err ⟨errName2code e.name,
        if e.message = "" then errString e else e.message, e.stack⟩, s) ∧
    (e.message ≠ "" →
      (if e.message = "" then errString e else e.message) = e.message) ∧
    errName2code "NotFoundError" = "NOT_FOUND" ∧
    errName2code "NotAllowedError" = "NOT_ALLOWED" ∧
    errName2code "TypeMismatchError" = "TYPE_MISMATCH" ∧
    errName2code "InvalidModificationError" = "INVALID_MODIFICATION" ∧
    errName2code "NoModificationAllowedError" = "LOCKED" ∧
    (∀ name, name ∉ ["NotFoundError", "NotAllowedError", "InvalidModificationError",
      "NoModificationAllowedError", "TypeMismatchError"] →
      errName2code name = "UNKNOWN_ERROR") := by
  refine ⟨?_, ?_, rfl, rfl, rfl, rfl, rfl, ?_⟩
  · simp only [OPFS_HANDLER, h]
  · intro hm
    rw [if_neg hm]
  · intro name hn
    simp only [List.mem_cons, List.mem_singleton, not_or] at hn
    obtain ⟨h1, h2, h3, h4, h5⟩ := hn
    simp [errName2code, h1, h2, h3, h4, h5]

/-- C5: writing a text of at most the default cap (2 MiB) and reading
it back with the default maxBytes returns exactly the written text
with truncated false. -/
theorem c5_write_read_roundtrip (path : String) (text : List Nat) (s s2 : Entries)
    (hlen : text.length ≤ TEXT_CAP)
    (hw : writeText path text s = .ok s2) :
    readText path none s2 = .ok ⟨text, false⟩ := by
  have hr : readFileSegs (pathParts path) s2 = .ok text :=
    readFileSegs_writeFileSegs text (pathParts path) s s2 hw
  have hnot : ¬ (TEXT_CAP < text.length) := not_lt.mpr hlen
  simp [readText, hr, effCap, hnot]

/-- C6: the copy implementation never consults the overwrite flag — for
every fuel, source, destination and store, running fs.copy with any two
values of the flag is the identical computation — and when the source
is a file, an existing destination file is always overwritten: after a
successful copy the destination holds exactly the source bytes
whatever was there before, for either flag value. -/
theorem c6_overwrite_flag_unused :
    (∀ (fuel : Nat) («from» «to» : String) (ow ow2 : Bool) (s : Entries),
      copyEntry fuel «from» «to» ow s = copyEntry fuel «from» «to» ow2 s) ∧
    (∀ (fuel : Nat) («from» «to» : String) (ow : Bool) (s s2 : Entries) (c : List Nat),
      rootAt s (pathParts «from») = some (Node.file c) →
      copyEntry fuel «from» «to» ow s = .ok s2 →
      readFileSegs (pathParts «to») s2 = .ok c) := by
  constructor
  · intro fuel f t ow ow2 s
    exact copyGo_ow_irrel fuel ow ow2 (.entry (pathParts f) (pathParts t)) s
  · intro fuel f t ow s s2 c hsrc h
    cases fuel with
    | zero => cases h
    | succ fuel =>
      have hns : nodeAtSegs (pathParts f) s = .ok (Node.file c) :=
        (nodeAtSegs_ok_iff _ s _).mpr hsrc
      simp only [copyEntry, copyGo, hns] at h
      exact readFileSegs_writeFileSegs c (pathParts t) s s2 h

/-- C7: fs.list with depth 1 never populates the children field of any
returned entry; with depth at least 2 every directory entry's children
field is populated with exactly the result of listing that entry's
path at depth - 1 (and file entries never carry children), so the
recursion proceeds until the depth is spent or a directory has no
children. -/
theorem c7_list_depth :
    (∀ (s : Entries) (incF incD : Bool) (path : String) (l : List FSEntry),
      list s incF incD 1 path = .ok l → ∀ e ∈ l, e.children = none) ∧
    (∀ (s : Entries) (incF incD : Bool) (d : Nat) (path : String) (l : List FSEntry),
      2 ≤ d → list s incF incD d path = .ok l → ∀ e ∈ l,
        (e.kind = .directory → ∃ ch, e.children = some ch ∧
          list s incF incD (d - 1) e.path = .ok ch) ∧
        (e.kind = .file → e.children = none)) := by
  constructor
  · intro s incF incD path l h e he
    rw [list_one] at h
    simp only [listCore] at h
    cases hda : dirAtSegs (pathParts path) s with
    | error e2 => rw [hda] at h; cases h
    | ok es =>
      rw [hda] at h
      exact listEntries_none_children incF incD path es l h e he
  · intro s incF incD d path l hd h e he
    obtain ⟨k, rfl⟩ : ∃ k, d = k + 2 := ⟨d - 2, by omega⟩
    rw [list_succ_succ] at h
    simp only [listCore] at h
    cases hda : dirAtSegs (pathParts path) s with
    | error e2 => rw [hda] at h; cases h
    | ok es =>
      rw [hda] at h
      have := listEntries_some_children incF incD path
        (fun p => list s incF incD (k + 1) p) es l h e he
      simpa using this

/-- C8: fs.mkdir is idempotent — a second mkdir of a path that was just
created succeeds and leaves the store untouched, with a single
directory at the path — and mkdir over a path whose segment resolves
to an existing file fails with TypeMismatchError, which maps to the
TYPE_MISMATCH code. -/
theorem c8_mkdir_idempotent :
    (∀ (path : String) (s s2 : Entries), mkdir path s = .ok s2 →
      mkdir path s2 = .ok s2 ∧ ∃ es, rootAt s2 (pathParts path) = some (Node.dir es)) ∧
    (∀ (path : String) (s : Entries),
      (∃ pre n rest2 c, pathParts path = pre ++ n :: rest2 ∧
        rootAt s (pre ++ [n]) = some (Node.file c)) →
      mkdir path s = .error typeMismatchError ∧
      errName2code typeMismatchError.name = "TYPE_MISMATCH") := by
  constructor
  · intro path s s2 h
    exact ⟨mkdirSegs_idem (pathParts path) s s2 h,
      mkdirSegs_makes_dir (pathParts path) s s2 h⟩
  · intro path s hfile
    exact ⟨mkdirSegs_error_of_file_at (pathParts path) s hfile, rfl⟩

/-- C9: any command name outside the closed thirteen-command
enumeration makes the handler return an UNKNOWN_COMMAND error response
with the "Unknown command" message — the handler is a total function,
so nothing is thrown. -/
theorem c9_unknown_command (env : Env) (fuel : Nat) (cmd : String) (p : Params)
    (s : Entries) (h : cmd ∉ commandNames) :
    OPFS_HANDLER env fuel cmd p s =
      (.err ⟨"UNKNOWN_COMMAND", "Unknown command: " ++ cmd, none⟩, s) := by
  simp only [OPFS_HANDLER, runCommand_none_of_unknown env fuel cmd p s h]

/-- C10: the path algebra is pure and satisfies the stated laws — the
root's parent is root (also for any single-segment path), the root's
basename is the empty string, the empty path and the slash both
resolve to the root directory with no traversal, and since empty
segments are filtered out, any two paths with the same segment list
(for instance paths differing only in repeated slashes) are treated
identically by the parent, basename and resolution functions. -/
theorem c10_path_algebra :
    getParentPath "/" = "/" ∧ getBasename "/" = "" ∧
    (∀ path, (pathParts path).length ≤ 1 → getParentPath path = "/") ∧
    dirname "/" = "/" ∧ basename "/" none = "" ∧
    (∀ s : Entries, getDirectoryHandle "" s = .ok s ∧ getDirectoryHandle "/" s = .ok s) ∧
    pathParts "" = ([] : List String) ∧ pathParts "/" = ([] : List String) ∧
    (∀ p q, pathParts p = pathParts q →
      getParentPath p = getParentPath q ∧ getBasename p = getBasename q ∧
      (∀ s : Entries, getDirectoryHandle p s = getDirectoryHandle q s)) ∧
    pathParts "//a///b/" = pathParts "/a/b" := by
  refine ⟨rfl, rfl, ?_, rfl, rfl, fun s => ⟨rfl, rfl⟩, rfl, rfl, ?_, rfl⟩
  · intro path h
    simp only [getParentPath]
    rw [if_pos h]
  · intro p q h
    refine ⟨?_, ?_, ?_⟩
    · simp only [getParentPath, h]
    · simp only [getBasename, h]
    · intro s
      simp only [getDirectoryHandle, h]

/-- C1 (amended): fs.move is exactly fs.copy followed by
fs.delete(from, recursive=true), for every pair of paths and every
flag; and whenever neither path is a prefix of the other, no entry
pre-exists at the destination, and the move succeeds on a well-formed
store, stat(from) afterwards fails with NotFoundError (code
NOT_FOUND), stat(to) succeeds, and the whole subtree now at the
destination is the subtree originally at the source. (Overlapping
paths and pre-existing destinations genuinely break the original
postcondition — see the counterexample.) -/
theorem c1_move_semantics :
    (∀ (fuel : Nat) («from» «to» : String) (ow : Bool) (s : Entries),
      moveEntry fuel «from» «to» ow s =
        (copyEntry fuel «from» «to» ow s).bind (fun s1 => deleteEntry «from» true s1)) ∧
    (∀ (fuel : Nat) («from» «to» : String) (ow : Bool) (s s2 : Entries),
      NodeWF (Node.dir s) →
      ¬ (pathParts «from» <+: pathParts «to») →
      ¬ (pathParts «to» <+: pathParts «from») →
      rootAt s (pathParts «to») = none →
      moveEntry fuel «from» «to» ow s = .ok s2 →
      stat «from» s2 = .error notFoundError ∧
      errName2code notFoundError.name = "NOT_FOUND" ∧
      (∃ r, stat «to» s2 = .ok r) ∧
      (∀ q, rootAt s2 (pathParts «to» ++ q) = rootAt s (pathParts «from» ++ q))) := by
  constructor
  · intro fuel f t ow s
    simp only [moveEntry]
    cases copyEntry fuel f t ow s with
    | error e => rfl
    | ok s1 => rfl
  · intro fuel f t ow s s2 hwf h1 h2 habs hmove
    simp only [moveEntry] at hmove
    cases hcp : copyEntry fuel f t ow s with
    | error e =>
      rw [hcp] at hmove
      cases hmove
    | ok s1 =>
      rw [hcp] at hmove
      obtain ⟨src, hsrc⟩ := copyGo_entry_src ow fuel (pathParts f) (pathParts t) s s1 hcp
      have hdiv : Diverge (pathParts f) (pathParts t) := diverge_of_not_prefix _ _ h1 h2
      have hpt : pathParts t ≠ [] := ne_nil_of_rootAt_none habs
      have hpf : pathParts f ≠ [] := by
        intro hnil
        apply h1
        rw [hnil]
        exact List.nil_prefix
      have hs1 : s1 = setPathE s (pathParts t) src :=
        (copyGo_correct fuel ow).1 (pathParts f) (pathParts t) s s1 src hwf hdiv habs hsrc hcp
      have hwfsrc : NodeWF src := nodeWF_rootAt hwf hsrc
      have hwf1 : NodeWF (Node.dir s1) := by
        rw [hs1]
        exact nodeWF_setPathE (pathParts t) s src hwf hwfsrc
      obtain ⟨⟨es, es2, he1, he2, he3, he4⟩, hframe, hwf2⟩ :=
        delSegs_spec (getBasename f) true (pathParts f).dropLast s1 s2 hwf1 hmove
      have hdec : (pathParts f).dropLast ++ [getBasename f] = pathParts f :=
        dropLast_basename f hpf
      rw [hdec] at hframe
      have hsubtrees : ∀ q, rootAt s2 (pathParts t ++ q) = rootAt s (pathParts f ++ q) := by
        intro q
        rw [hframe (pathParts t ++ q) (hdiv.symm.append_left q), hs1,
          rootAt_setPathE_append (pathParts t) hpt s src q, rootAt_append, hsrc]
        rfl
      refine ⟨?_, rfl, ?_, hsubtrees⟩
      · have hmiss := nodeAtSegs_append_missing (pathParts f).dropLast s2 es2
          (getBasename f) he2 he4
        rw [hdec] at hmiss
        simp [stat, hmiss]
      · have hto : rootAt s2 (pathParts t) = some src := by
          have := hsubtrees []
          simpa [hsrc] using this
        have hns2 : nodeAtSegs (pathParts t) s2 = .ok src :=
          (nodeAtSegs_ok_iff _ s2 src).mpr hto
        cases src with
        | dir es3 => exact ⟨⟨.directory, 0, none⟩, by simp [stat, hns2]⟩
        | file c =>
          exact ⟨⟨.file, c.length, some (getMimeType (getBasename t))⟩,
            by simp [stat, hns2]⟩

/-- C2 (amended): when neither path is a prefix of the other, no entry
pre-exists at the destination, and the store is well-formed, a
successful fs.copy of the directory at from places at to that very
directory subtree: the destination's entry list (hence its child-name
set and order) equals the source's, every descendant of the
destination equals the corresponding descendant of the source
(including empty subdirectories, whole file contents included), and
the source subtree is left untouched. (A pre-existing destination
directory merges instead, and copying into an ancestor pollutes the
comparison — see the counterexample.) -/
theorem c2_copy_directory (fuel : Nat) («from» «to» : String) (ow : Bool)
    (s s2 es0 : Entries)
    (hwf : NodeWF (Node.dir s))
    (h1 : ¬ (pathParts «from» <+: pathParts «to»))
    (h2 : ¬ (pathParts «to» <+: pathParts «from»))
    (habs : rootAt s (pathParts «to») = none)
    (hsrc : rootAt s (pathParts «from») = some (Node.dir es0))
    (hcp : copyEntry fuel «from» «to» ow s = .ok s2) :
    rootAt s2 (pathParts «to») = some (Node.dir es0) ∧
    (∀ q, rootAt s2 (pathParts «to» ++ q) = rootAt s (pathParts «from» ++ q)) ∧
    (∀ q, rootAt s2 (pathParts «from» ++ q) = rootAt s (pathParts «from» ++ q)) := by
  have hdiv : Diverge (pathParts «from») (pathParts «to») := diverge_of_not_prefix _ _ h1 h2
  have hpt : pathParts «to» ≠ [] := ne_nil_of_rootAt_none habs
  have hs2 : s2 = setPathE s (pathParts «to») (Node.dir es0) :=
    (copyGo_correct fuel ow).1 (pathParts «from») (pathParts «to») s s2 (Node.dir es0)
      hwf hdiv habs hsrc hcp
  subst hs2
  refine ⟨rootAt_setPathE_self hpt s (Node.dir es0), ?_, ?_⟩
  · intro q
    rw [rootAt_setPathE_append (pathParts «to») hpt s (Node.dir es0) q,
      rootAt_append, hsrc]
    rfl
  · intro q
    exact rootAt_setPathE_diverge (pathParts «from» ++ q) (pathParts «to») s
      (Node.dir es0) (hdiv.append_left q)

/-! ## Counterexamples -/

/-- C1 counterexample: moving a file onto itself succeeds yet leaves
nothing at the destination, so stat(to) fails instead of succeeding;
and moving a directory onto a pre-existing directory leaves content at
the destination that the source never contained. -/
theorem c1_counterexample :
    (moveEntry 5 "/f" "/f" false [("f", Node.file [1])] = .ok [] ∧
      stat "/f" ([] : Entries) = .error notFoundError) ∧
    (moveEntry 10 "/a" "/z" false
        [("a", Node.dir [("x", Node.file [1])]), ("z", Node.dir [("y", Node.file [2])])] =
        .ok [("z", Node.dir [("y", Node.file [2]), ("x", Node.file [1])])] ∧
      readText "/z/y" none [("z", Node.dir [("y", Node.file [2]), ("x", Node.file [1])])] =
        .ok ⟨[2], false⟩ ∧
      readText "/a/y" none
          [("a", Node.dir [("x", Node.file [1])]), ("z", Node.dir [("y", Node.file [2])])] =
        .error notFoundError) :=
  ⟨⟨rfl, rfl⟩, rfl, rfl, rfl⟩

/-- C2 counterexample: copying a directory onto a pre-existing
directory merges into it, so the destination's child-name set gains
names the source does not have; and copying a directory into its
parent succeeds while polluting the destination similarly. -/
theorem c2_counterexample :
    (copyEntry 10 "/a" "/z" false
        [("a", Node.dir [("x", Node.file [1])]), ("z", Node.dir [("y", Node.file [2])])] =
        .ok [("a", Node.dir [("x", Node.file [1])]),
          ("z", Node.dir [("y", Node.file [2]), ("x", Node.file [1])])] ∧
      childNames (rootAt [("a", Node.dir [("x", Node.file [1])]),
          ("z", Node.dir [("y", Node.file [2]), ("x", Node.file [1])])] (pathParts "/z")) =
        some ["y", "x"] ∧
      childNames (rootAt [("a", Node.dir [("x", Node.file [1])]),
          ("z", Node.dir [("y", Node.file [2])])] (pathParts "/a")) = some ["x"] ∧
      (["y", "x"] : List String) ≠ ["x"]) ∧
    (copyEntry 10 "/a/b" "/a" false
        [("a", Node.dir [("b", Node.dir [("x", Node.file [5])])])] =
        .ok [("a", Node.dir [("b", Node.dir [("x", Node.file [5])]), ("x", Node.file [5])])] ∧
      childNames (rootAt
          [("a", Node.dir [("b", Node.dir [("x", Node.file [5])]), ("x", Node.file [5])])]
          (pathParts "/a")) = some ["b", "x"] ∧
      childNames (rootAt [("a", Node.dir [("b", Node.dir [("x", Node.file [5])])])]
          (pathParts "/a/b")) = some ["x"] ∧
      (["b", "x"] : List String) ≠ ["x"]) :=
  ⟨⟨rfl, rfl, rfl, by decide⟩, rfl, rfl, rfl, by decide⟩

/-- C3 counterexample: with an explicit maxBytes of 0 the cap per the
claim is 0 and a 1-byte file strictly exceeds it, yet readText applies
the `maxBytes || default` fallback and returns the full byte with
truncated = false, so "truncated iff size exceeds the cap" fails. -/
theorem c3_counterexample :
    readText "/f" (some 0) [("f", Node.file [1])] = .ok ⟨[1], false⟩ ∧
    (0 : Nat) < ([1] : List Nat).length ∧
    ¬ (((false : Bool) = true) ↔ ((0 : Nat) < ([1] : List Nat).length)) :=
  ⟨rfl, by decide, by decide⟩

/-! ## Witnesses -/

/-- Witness for C1 on a concrete move of a directory between disjoint
paths. -/
theorem c1_witness :
    stat "/a" [("z", Node.dir [("x", Node.file [1])])] = .error notFoundError ∧
    (∃ r, stat "/z" [("z", Node.dir [("x", Node.file [1])])] = .ok r) := by
  have h := (c1_move_semantics).2 10 "/a" "/z" false
    [("a", Node.dir [("x", Node.file [1])])] [("z", Node.dir [("x", Node.file [1])])]
    (nodeWF_of_nodeWfN 3 _ rfl) (by decide) (by decide) rfl rfl
  exact ⟨h.1, h.2.2.1⟩

/-- Witness for C2 on a concrete directory copy to an absent
destination. -/
theorem c2_witness :
    rootAt [("a", Node.dir [("x", Node.file [1])]), ("z", Node.dir [("x", Node.file [1])])]
      (pathParts "/z") = some (Node.dir [("x", Node.file [1])]) := by
  have h := c2_copy_directory 10 "/a" "/z" false
    [("a", Node.dir [("x", Node.file [1])])]
    [("a", Node.dir [("x", Node.file [1])]), ("z", Node.dir [("x", Node.file [1])])]
    [("x", Node.file [1])]
    (nodeWF_of_nodeWfN 3 _ rfl) (by decide) (by decide) rfl rfl rfl
  exact h.1

/-- Witness for C3 on a 2-byte file read with an explicit cap of 1. -/
theorem c3_witness :
    ∃ r, readText "/f" (some 1) [("f", Node.file [7, 8])] = .ok r ∧
      (r.truncated = true ↔ (some 1 : Option Nat).getD TEXT_CAP < ([7, 8] : List Nat).length) ∧
      (r.truncated = true → r.text = ([7, 8] : List Nat).take ((some 1 : Option Nat).getD TEXT_CAP)) ∧
      (r.truncated = false → r.text = [7, 8]) :=
  c3_readText_truncation "/f" (some 1) [("f", Node.file [7, 8])] [7, 8]
    (Or.inr ⟨1, rfl, by decide⟩) rfl

/-- Witness for C4: fs.stat of a missing path maps its NotFoundError
to NOT_FOUND, and a rejecting navigator.storage.estimate() surfaces
through the opfs.estimate handler as UNKNOWN_ERROR, message and stack
carried over in both cases. -/
theorem c4_witness :
    OPFS_HANDLER ⟨true, true, none, .ok (none, none)⟩ 1 "fs.stat"
        { Params.empty with path := "/nope" } [] =
      (.err ⟨"NOT_FOUND", "A requested file or directory could not be found.",
        some "NotFoundError stack"⟩, []) ∧
    OPFS_HANDLER ⟨true, true, none,
        .error ⟨"UnknownError", "estimate failed", some "UnknownError stack"⟩⟩ 1
        "opfs.estimate" Params.empty [] =
      (.err ⟨"UNKNOWN_ERROR", "estimate failed", some "UnknownError stack"⟩, []) := by
  have h1 := c4_error_mapping ⟨true, true, none, .ok (none, none)⟩ 1 "fs.stat"
    { Params.empty with path := "/nope" } [] notFoundError rfl
  have h2 := c4_error_mapping
    ⟨true, true, none, .error ⟨"UnknownError", "estimate failed", some "UnknownError stack"⟩⟩
    1 "opfs.estimate" Params.empty []
    ⟨"UnknownError", "estimate failed", some "UnknownError stack"⟩ rfl
  exact ⟨h1.1, h2.1⟩

/-- Witness for C5 on a concrete two-byte write and read-back. -/
theorem c5_witness :
    readText "/a/c.txt" none [("a", Node.dir [("c.txt", Node.file [104, 105])])] =
      .ok ⟨[104, 105], false⟩ :=
  c5_write_read_roundtrip "/a/c.txt" [104, 105] []
    [("a", Node.dir [("c.txt", Node.file [104, 105])])] (by decide) rfl

/-- Witness for C6: flag-independence at concrete arguments, and a
concrete file copy that replaces a pre-existing destination file. -/
theorem c6_witness :
    (copyEntry 5 "/x" "/y" true [] = copyEntry 5 "/x" "/y" false []) ∧
    readFileSegs (pathParts "/g") [("f", Node.file [9]), ("g", Node.file [9])] = .ok [9] :=
  ⟨(c6_overwrite_flag_unused).1 5 "/x" "/y" true false [],
    (c6_overwrite_flag_unused).2 5 "/f" "/g" true
      [("f", Node.file [9]), ("g", Node.file [1, 2, 3])]
      [("f", Node.file [9]), ("g", Node.file [9])] [9] rfl rfl⟩

/-- Witness for C7 on a concrete two-level store listed at depths 1
and 2. -/
theorem c7_witness :
    ((FSEntry.mk "b" "/b" .directory none none none).children = none) ∧
    (∃ ch, (FSEntry.mk "b" "/b" .directory none none
        (some [FSEntry.mk "c.txt" "/b/c.txt" .file (some 2) (some "text/plain") none])).children =
          some ch ∧
      list [("b", Node.dir [("c.txt", Node.file [104, 105])]), ("r.md", Node.file [3])]
        true true (2 - 1) "/b" = .ok ch) := by
  constructor
  · exact c7_list_depth.1
      [("b", Node.dir [("c.txt", Node.file [104, 105])]), ("r.md", Node.file [3])]
      true true "/"
      [FSEntry.mk "b" "/b" .directory none none none,
        FSEntry.mk "r.md" "/r.md" .file (some 1) (some "text/markdown") none]
      rfl _ (List.mem_cons_self _ _)
  · exact (c7_list_depth.2
      [("b", Node.dir [("c.txt", Node.file [104, 105])]), ("r.md", Node.file [3])]
      true true 2 "/"
      [FSEntry.mk "b" "/b" .directory none none
          (some [FSEntry.mk "c.txt" "/b/c.txt" .file (some 2) (some "text/plain") none]),
        FSEntry.mk "r.md" "/r.md" .file (some 1) (some "text/markdown") none]
      (by decide) rfl _ (List.mem_cons_self _ _)).1 rfl

/-- Witness for C8: double mkdir of a fresh nested path, and mkdir over
an existing file. -/
theorem c8_witness :
    (mkdir "/a/b" [("a", Node.dir [("b", Node.dir [])])] =
        .ok [("a", Node.dir [("b", Node.dir [])])] ∧
      ∃ es, rootAt [("a", Node.dir [("b", Node.dir [])])] (pathParts "/a/b") =
        some (Node.dir es)) ∧
    (mkdir "/f/x" [("f", Node.file [1])] = .error typeMismatchError ∧
      errName2code typeMismatchError.name = "TYPE_MISMATCH") :=
  ⟨(c8_mkdir_idempotent).1 "/a/b" [] [("a", Node.dir [("b", Node.dir [])])] rfl,
    (c8_mkdir_idempotent).2 "/f/x" [("f", Node.file [1])]
      ⟨[], "f", ["x"], [1], rfl, rfl⟩⟩

/-- Witness for C9 on the unknown command name fs.chmod. -/
theorem c9_witness :
    OPFS_HANDLER ⟨true, true, none, .ok (none, none)⟩ 5 "fs.chmod" Params.empty [] =
      (.err ⟨"UNKNOWN_COMMAND", "Unknown command: fs.chmod", none⟩, []) :=
  c9_unknown_command ⟨true, true, none, .ok (none, none)⟩ 5 "fs.chmod" Params.empty []
    (by decide)

/-- Witness for C10: a single-segment path's parent is the root, and
paths that differ only in repeated slashes behave identically. -/
theorem c10_witness :
    getParentPath "/abc" = "/" ∧
    (getParentPath "//a//b" = getParentPath "/a/b" ∧
      getBasename "//a//b" = getBasename "/a/b" ∧
      (∀ s : Entries, getDirectoryHandle "//a//b" s = getDirectoryHandle "/a/b" s)) :=
  ⟨(c10_path_algebra).2.2.1 "/abc" (by decide),
    (c10_path_algebra).2.2.2.2.2.2.2.2.1 "//a//b" "/a/b" rfl⟩

end Opfs
